import Mathlib

/-!
Verification of the annotation engine of the Obsidian-Hover-Annotations plugin.

The repository carries two revisions of the plugin: an older `main.ts`
(no color classes, no `|` escaping, no normalizer) and the current full
source embedded in `CHANGELOG.md`, which is the revision the
specification describes (color group in COMMENT_REGEX, `&#124;`
escaping, `normalizeAnnotationsInText`, edit/delete/color commands).
This development models the current revision.

The program embeds annotations in a document as inline markers
  <span class="ob-comment COLOR?" data-note="ENCODED">VISIBLE</span>
and provides: an escaping codec for the data-note attribute
(escapeDataNote / decodeDataNote), a regex-based marker matcher
(COMMENT_REGEX driven by an exec loop), a cursor-to-marker resolver
(findAnnotationAtCursor), a document normalizer (normalizeAnnotationsInText),
a Live-Preview decoration builder (buildDecorations), and text-replacement
builders for the add / edit / change-color / delete operations.

Strings are modelled as `List Char` (the `String` wrappers mirror the
source signatures).  JavaScript's `String.replace(/pat/g, rep)` is modelled
by a single left-to-right non-overlapping scan that never rescans the
replacement text.  The regex `COMMENT_REGEX` is modelled by an explicit
backtracking-free scanner that is equivalent to the JS engine's behaviour
on this pattern: the literal pieces are matched directly, the optional
color group `(?:\s+([\w-]+))?` is maximal-munch (shortening the greedy
runs `\s+`/`[\w-]+` can never turn a failure into a success because the
character classes involved are pairwise disjoint and disjoint from `"`),
and each lazy field `([\s\S]*?)` stops at the first position where its
following literal matches and the rest of the pattern can still succeed.
The `g`-flag exec loop (matching resumes at `lastIndex` = end of the
previous match) is modelled by `scanAux`, written with an explicit fuel
counter (`text.length + 1` steps always suffice since every loop
iteration advances the scan position by at least one character); fuel
keeps every definition executable by kernel reduction.
-/

/-! ### Characters that cannot be written as plain literals here -/

def quoteC : Char := Char.ofNat 34

def aposC : Char := Char.ofNat 39

def btickC : Char := Char.ofNat 96

/-! ### JS `String.replace` models -/

/-- Model of `s.replace(/a/g, r)` for a single-character pattern `a`: every occurrence of `a` is replaced by `r`. -/
def replaceChar (a : Char) (r : List Char) : List Char → List Char
  | [] => []
  | c :: t => (if c = a then r else [c]) ++ replaceChar a r t

/-- Model of `s.replace(/\r?\n/g, r)`: a left-to-right scan
replacing each `"\r\n"` pair and each lone `"\n"` by `r`; a `'\r'` not
followed by `'\n'` is left in place. -/
def replaceNL (r : List Char) : List Char → List Char
  | [] => []
  | '\r' :: '\n' :: t => r ++ replaceNL r t
  | '\n' :: t => r ++ replaceNL r t
  | c :: t => c :: replaceNL r t

/-- Helper for `replaceAll`: when `skip = k + 1`, the next `k + 1`
characters belong to an already-matched occurrence of the pattern and are
consumed without being re-examined (JS never rescans matched text). -/
def repAux (p r : List Char) : Nat → List Char → List Char
  | _, [] => []
  | Nat.succ k, _ :: t => repAux p r k t
  | 0, c :: t =>
    if p.isPrefixOf (c :: t) then r ++ repAux p r (p.length - 1) t
    else c :: repAux p r 0 t

/-- Model of `s.replace(/p/g, r)` for a multi-character literal pattern `p`: leftmost non-overlapping occurrences of `p` are
replaced by `r`, and the inserted `r` is never rescanned. -/
def replaceAll (p r : List Char) (s : List Char) : List Char :=
  repAux p r 0 s

/-! ### The data-note codec, translated from the source

```js
function escapeDataNote(note) {
  return note
    .replace(/&/g, "&amp;").replace(/"/g, "&quot;").replace(/</g, "&lt;")
    .replace(/>/g, "&gt;").replace(/'/g, "&#39;").replace(/`/g, "&#96;")
    .replace(/\|/g, "&#124;").replace(/\r?\n/g, "&#10;");
}
function decodeDataNote(note) {
  return note
    .replace(/&#10;/g, "\n").replace(/&#13;/g, "\r").replace(/&#96;/g, "`")
    .replace(/&#39;/g, "'").replace(/&quot;/g, "\"").replace(/&gt;/g, ">")
    .replace(/&lt;/g, "<").replace(/&#124;/g, "|").replace(/&amp;/g, "&");
}
``` -/

def ampSeq : List Char := "&amp;".toList

def quotSeq : List Char := "&quot;".toList

def ltSeq : List Char := "&lt;".toList

def gtSeq : List Char := "&gt;".toList

def aposSeq : List Char := "&#39;".toList

def btickSeq : List Char := "&#96;".toList

def pipeSeq : List Char := "&#124;".toList

def nlSeq : List Char := "&#10;".toList

def crSeq : List Char := "&#13;".toList

/-- The first seven substitutions of `escapeDataNote` (all the
single-character ones, in source order): `&`, `"`, `<`, `>`, `'`, the
backtick, `|`. -/
def esc7 (s : List Char) : List Char :=
  replaceChar '|' pipeSeq
    (replaceChar btickC btickSeq
      (replaceChar aposC aposSeq
        (replaceChar '>' gtSeq
          (replaceChar '<' ltSeq
            (replaceChar quoteC quotSeq
              (replaceChar '&' ampSeq s))))))

/-- The escape `escapeDataNote` on character lists, with the source's substitution
order: `&`, `"`, `<`, `>`, `'`, the backtick, `|`, then `\r?\n`. -/
def escapeDataNoteList (s : List Char) : List Char :=
  replaceNL nlSeq (esc7 s)

/-- The decode `decodeDataNote` on character lists, with the source's substitution
order: `&#10;`, `&#13;`, `&#96;`, `&#39;`, `&quot;`, `&gt;`, `&lt;`,
`&#124;`, then `&amp;`. -/
def decodeDataNoteList (s : List Char) : List Char :=
  replaceAll ampSeq ['&']
    (replaceAll pipeSeq ['|']
      (replaceAll ltSeq ['<']
        (replaceAll gtSeq ['>']
          (replaceAll quotSeq [quoteC]
            (replaceAll aposSeq [aposC]
              (replaceAll btickSeq [btickC]
                (replaceAll crSeq ['\r']
                  (replaceAll nlSeq ['\n'] s))))))))

def escapeDataNote (s : String) : String :=
  ⟨escapeDataNoteList s.data⟩

def decodeDataNote (s : String) : String :=
  ⟨decodeDataNoteList s.data⟩

/-- The per-character escape map realised by `escapeDataNote` on inputs
without carriage returns. -/
def escChar (c : Char) : List Char :=
  if c = '&' then ampSeq
  else if c = quoteC then quotSeq
  else if c = '<' then ltSeq
  else if c = '>' then gtSeq
  else if c = aposC then aposSeq
  else if c = btickC then btickSeq
  else if c = '|' then pipeSeq
  else if c = '\n' then nlSeq
  else [c]

/-- Block image of the full escape on arbitrary input: each `"\r\n"` pair
becomes one `"&#10;"` block, every other character becomes its
`escChar` block (a lone `'\r'` stays as itself). -/
def escBlocksCR : List Char → List Char
  | [] => []
  | '\r' :: '\n' :: t => nlSeq ++ escBlocksCR t
  | c :: t => escChar c ++ escBlocksCR t

/-- Concatenates one block per character. -/
def blockMap (h : Char → List Char) : List Char → List Char
  | [] => []
  | c :: t => h c ++ blockMap h t

/-- A block that a decode pass (pattern `'&' :: p'`) passes over
untouched: either it contains no ampersand at all, or it is a full escape
block (ampersand only at the head) that neither contains the pattern as a
prefix nor is a prefix of it. -/
def GoodBlock (p b : List Char) : Prop :=
  ('&' ∉ b) ∨
    (b.head? = some '&' ∧ '&' ∉ b.tail ∧ p.isPrefixOf b = false ∧ b.isPrefixOf p = false)

instance (p b : List Char) : Decidable (GoodBlock p b) := by
  unfold GoodBlock; infer_instance

/-! ### The per-character block functions after each decode pass -/

/-- Blocks after the `&#10;` pass. -/
def stageA (c : Char) : List Char := if c = '\n' then ['\n'] else escChar c

/-- Blocks after the backtick (`&#96;`) pass (the `&#13;` pass changes nothing). -/
def stageB (c : Char) : List Char := if c = btickC then [btickC] else stageA c

/-- Blocks after the `&#39;` pass. -/
def stageC (c : Char) : List Char := if c = aposC then [aposC] else stageB c

/-- Blocks after the `&quot;` pass. -/
def stageD (c : Char) : List Char := if c = quoteC then [quoteC] else stageC c

/-- Blocks after the `&gt;` pass. -/
def stageE (c : Char) : List Char := if c = '>' then ['>'] else stageD c

/-- Blocks after the `&lt;` pass. -/
def stageF (c : Char) : List Char := if c = '<' then ['<'] else stageE c

/-- Blocks after the `&#124;` pass. -/
def stageG (c : Char) : List Char := if c = '|' then ['|'] else stageF c

/-- The identity block function (state after the final `&amp;` pass). -/
def idBlock (c : Char) : List Char := [c]






/-! ### The marker grammar

```js
const COMMENT_REGEX =
  /<span class="ob-comment(?:\s+([\w-]+))?" data-note="([\s\S]*?)">([\s\S]*?)<\/span>/g;
```

`matchParse s` models one attempt of this regex at the start of `s`:
the literal `<span class="ob-comment`, then the optional greedy color
group, then the literal `" data-note="`, then the lazy note field up to
the first `">` from which the rest of the pattern can still succeed,
then the lazy visible field up to the first `</span>`. -/

/-- JavaScript's `\s` character class. -/
def isJsSpace (c : Char) : Bool :=
  let n := c.toNat
  n = 32 || n = 9 || n = 10 || n = 11 || n = 12 || n = 13 || n = 0xa0 ||
    n = 0x1680 || (0x2000 ≤ n && n ≤ 0x200a) || n = 0x2028 || n = 0x2029 ||
    n = 0x202f || n = 0x205f || n = 0x3000 || n = 0xfeff

/-- JavaScript's `[\w-]` character class. -/
def isWordDash (c : Char) : Bool :=
  let n := c.toNat
  (65 ≤ n && n ≤ 90) || (97 ≤ n && n ≤ 122) || (48 ≤ n && n ≤ 57) || n = 95 || n = 45

/-- The literal `<span class="ob-comment` (23 characters). -/
def openLit : List Char := "<span class=\"ob-comment".toList

/-- The literal `" data-note="` (13 characters). -/
def dnLit : List Char := "\" data-note=\"".toList

/-- The literal `">` closing the opening tag. -/
def qgtLit : List Char := "\">".toList

/-- The literal `</span>` (7 characters). -/
def closeLit : List Char := "</span>".toList

/-- Whether `p` occurs as a contiguous subsequence of `s`. -/
def containsSeq (p : List Char) : List Char → Bool
  | [] => p.isPrefixOf []
  | c :: t => p.isPrefixOf (c :: t) || containsSeq p t

/-- The optional greedy color group `(?:\s+([\w-]+))?` followed by the
literal `" data-note="`.  Returns the captured color (if the group
matched) and the remainder after the literal.  Maximal munch is faithful
here: `\s`, `[\w-]` and `"` are pairwise disjoint, so shortening a greedy
run can never repair a failed attempt. -/
def parseColor (s : List Char) : Option (Option (List Char) × List Char) :=
  let ws := s.takeWhile isJsSpace
  let s1 := s.dropWhile isJsSpace
  let w := s1.takeWhile isWordDash
  let s2 := s1.dropWhile isWordDash
  if !ws.isEmpty && !w.isEmpty && dnLit.isPrefixOf s2 then
    some (some w, s2.drop 13)
  else if dnLit.isPrefixOf s then some (none, s.drop 13)
  else none

/-- The lazy note field `([\s\S]*?)">`: stop at the first `">` after
which a `</span>` still exists (otherwise the engine would backtrack and
extend the note).  Returns the captured note and the remainder after
the `">`. -/
def noteSplit : List Char → Option (List Char × List Char)
  | [] => none
  | c :: t =>
    if qgtLit.isPrefixOf (c :: t) && containsSeq closeLit ((c :: t).drop 2) then
      some ([], (c :: t).drop 2)
    else (noteSplit t).map (fun pr => (c :: pr.1, pr.2))

/-- The lazy visible field `([\s\S]*?)<\/span>`: stop at the first
`</span>`.  Returns the captured visible text and the remainder after
the `</span>`. -/
def visSplit : List Char → Option (List Char × List Char)
  | [] => none
  | c :: t =>
    if closeLit.isPrefixOf (c :: t) then some ([], (c :: t).drop 7)
    else (visSplit t).map (fun pr => (c :: pr.1, pr.2))

/-- One attempt of `COMMENT_REGEX` at the start of `s`: returns the
captured color group (`none` when the optional group did not
participate), the raw note, the visible text, and the total number of
characters matched. -/
def matchParse (s : List Char) : Option (Option (List Char) × List Char × List Char × Nat) :=
  if openLit.isPrefixOf s then
    match parseColor (s.drop 23) with
    | none => none
    | some (color, s2) =>
      match noteSplit s2 with
      | none => none
      | some (note, s3) =>
        match visSplit s3 with
        | none => none
        | some (vis, s4) => some (color, note, vis, s.length - s4.length)
  else none

/-- One match reported by the exec loop over `COMMENT_REGEX`. -/
structure RawMatch where
  index : Nat
  color : Option (List Char)
  note : List Char
  visible : List Char
  len : Nat
deriving DecidableEq

/-- End offset (exclusive) of a match. -/
def endIdx (m : RawMatch) : Nat := m.index + m.len

/-- The `while ((match = COMMENT_REGEX.exec(text)) !== null)` loop
starting at `lastIndex = i`: the regex engine tries successive start
positions and, after a match, resumes at the match end.  `fuel` bounds
the number of loop steps; `text.length + 1` always suffices since every
step advances the position. -/
def scanAux (text : List Char) : Nat → Nat → List RawMatch
  | 0, _ => []
  | fuel + 1, i =>
    if text.length < i then []
    else match matchParse (text.drop i) with
      | some (color, note, vis, len) =>
        ⟨i, color, note, vis, len⟩ :: scanAux text fuel (i + len)
      | none => scanAux text fuel (i + 1)

/-- All matches of `COMMENT_REGEX` over `text`, in document order. -/
def allMatches (text : List Char) : List RawMatch :=
  scanAux text (text.length + 1) 0

/-! ### The cursor resolver, translated from `findAnnotationAtCursor` -/

/-- What `findAnnotationAtCursor` returns for a hit (offsets are kept as
offsets; the host's `offsetToPos` coordinate mapping is outside the
core).  `color` is `match[1] || ""` and `note` is the decoded payload. -/
structure Resolved where
  fromOffset : Nat
  toOffset : Nat
  text : List Char
  note : List Char
  color : List Char
deriving DecidableEq

def resolveMatch (m : RawMatch) : Resolved :=
  ⟨m.index, endIdx m, m.visible, decodeDataNoteList m.note, m.color.getD []⟩

/-- The body of `findAnnotationAtCursor`'s exec loop: return the first
match whose closed span `[startOffset, endOffset]` contains the cursor
offset (the source tests `cursorOffset >= startOffset && cursorOffset <=
endOffset`). -/
def findAtAux (text : List Char) (off : Nat) : Nat → Nat → Option Resolved
  | 0, _ => none
  | fuel + 1, i =>
    if text.length < i then none
    else match matchParse (text.drop i) with
      | some (color, note, vis, len) =>
        if i ≤ off && off ≤ i + len then some (resolveMatch ⟨i, color, note, vis, len⟩)
        else findAtAux text off fuel (i + len)
      | none => findAtAux text off fuel (i + 1)

def findAnnotationAtCursor (text : List Char) (off : Nat) : Option Resolved :=
  findAtAux text off (text.length + 1) 0

/-- Does a match's closed span contain the offset?  (Spec-side predicate
used to characterise `findAnnotationAtCursor`.) -/
def spanContains (off : Nat) (m : RawMatch) : Bool :=
  m.index ≤ off && off ≤ endIdx m

/-! ### The normalizer, translated from `normalizeAnnotationsInText` -/

/-- Source `buildAnnotationClass`: `color ? "ob-comment " + color : "ob-comment"`. -/
def buildAnnotationClass (color : List Char) : List Char :=
  if color.isEmpty then "ob-comment".toList else "ob-comment ".toList ++ color

/-- The replacement the normalizer writes for one match:
`<span class="${buildAnnotationClass(colorClass)}" data-note="${safeNote}">${visibleText}</span>`
with `safeNote = escapeDataNote(decodeDataNote(rawNote))` and
`colorClass = match[1] || ""`. -/
def rebuildMarker (m : RawMatch) : List Char :=
  "<span class=\"".toList ++ buildAnnotationClass (m.color.getD []) ++ dnLit ++
    escapeDataNoteList (decodeDataNoteList m.note) ++ qgtLit ++ m.visible ++ closeLit

/-- The normalizer's exec loop from scan position `i`: emits the text
between matches unchanged, replaces each match by `rebuildMarker`, and
accumulates the `changed` flag (`replacement !== fullMatch`). -/
def normAux (text : List Char) : Nat → Nat → List Char × Bool
  | 0, i => (text.drop i, false)
  | fuel + 1, i =>
    if text.length < i then (text.drop i, false)
    else match matchParse (text.drop i) with
      | some (color, note, vis, len) =>
        let m : RawMatch := ⟨i, color, note, vis, len⟩
        let rest := normAux text fuel (i + len)
        (rebuildMarker m ++ rest.1,
          rest.2 || !(rebuildMarker m == (text.drop i).take len))
      | none =>
        let rest := normAux text fuel (i + 1)
        ((text.drop i).take 1 ++ rest.1, rest.2)

/-- Source `normalizeAnnotationsInText`: returns
`{ text: changed ? result : text, changed }`. -/
def normalizeAnnotationsInText (text : List Char) : List Char × Bool :=
  let r := normAux text (text.length + 1) 0
  (if r.2 then r.1 else text, r.2)

/-- Spec-side reassembly of the normalized document from the match list:
the slices of the original text between the match spans, interleaved
with the rebuilt markers. -/
def normSpec (text : List Char) : List RawMatch → Nat → List Char
  | [], last => text.drop last
  | m :: ms, last =>
    (text.drop last).take (m.index - last) ++ rebuildMarker m ++
      normSpec text ms (endIdx m)

/-! ### The Live-Preview decoration builder, translated from `buildDecorations` -/

/-- One decoration instruction: `rep` is `Decoration.replace({})`
(collapse the range), `mark` is `Decoration.mark` carrying the CSS class
and the decoded note as renderer metadata. -/
inductive Deco where
  | rep (dFrom dTo : Nat)
  | mark (dFrom dTo : Nat) (cls : List Char) (note : List Char)
deriving DecidableEq

/-- First index of `'>'` in `l`, if any. -/
def idxGtAux : List Char → Nat → Option Nat
  | [], _ => none
  | c :: t, k => if c = '>' then some k else idxGtAux t (k + 1)

/-- Model of `fullMatch.indexOf(c) + 1` for the character `>` (JS `indexOf` yields `-1`, hence `0`
overall, when `'>'` is absent). -/
def openingTagLen (l : List Char) : Nat :=
  match idxGtAux l 0 with
  | some k => k + 1
  | none => 0

/-- The decoration loop: per match, skip everything when the selection
endpoints `cursorFrom`/`cursorTo` touch the closed span, else emit
replace(openingTag), mark(content), replace(closingTag). -/
def buildDecorationsAux (text : List Char) (cursorFrom cursorTo : Nat) :
    Nat → Nat → List Deco
  | 0, _ => []
  | fuel + 1, i =>
    if text.length < i then []
    else match matchParse (text.drop i) with
      | some (color, note, vis, len) =>
        let rest := buildDecorationsAux text cursorFrom cursorTo fuel (i + len)
        if (i ≤ cursorFrom && cursorFrom ≤ i + len) ||
            (i ≤ cursorTo && cursorTo ≤ i + len) then rest
        else
          let otl := openingTagLen ((text.drop i).take len)
          Deco.rep i (i + otl) ::
            Deco.mark (i + otl) (i + otl + vis.length)
              (buildAnnotationClass (color.getD [])) (decodeDataNoteList note) ::
            Deco.rep (i + otl + vis.length) (i + len) :: rest
      | none => buildDecorationsAux text cursorFrom cursorTo fuel (i + 1)

def buildDecorations (text : List Char) (cursorFrom cursorTo : Nat) : List Deco :=
  buildDecorationsAux text cursorFrom cursorTo (text.length + 1) 0

/-- Spec-side decorations for one match, with the opening-delimiter span
computed structurally (everything before the visible text) rather than
via `indexOf('>')`. -/
def specDecoForMatch (m : RawMatch) : List Deco :=
  let otl := m.len - m.visible.length - 7
  [Deco.rep m.index (m.index + otl),
   Deco.mark (m.index + otl) (m.index + otl + m.visible.length)
     (buildAnnotationClass (m.color.getD [])) (decodeDataNoteList m.note),
   Deco.rep (m.index + otl + m.visible.length) (endIdx m)]

/-- Spec-side decoration list over a match list. -/
def specDecorations (cursorFrom cursorTo : Nat) : List RawMatch → List Deco
  | [] => []
  | m :: ms =>
    (if (m.index ≤ cursorFrom && cursorFrom ≤ endIdx m) ||
        (m.index ≤ cursorTo && cursorTo ≤ endIdx m) then []
     else specDecoForMatch m) ++ specDecorations cursorFrom cursorTo ms

/-! ### Replacement builders for the add / edit / change-color / delete operations -/

/-- The values of the source's `COLOR_OPTIONS` palette (`""` is the
default / empty class). -/
def colorOptionValues : List (List Char) :=
  ["".toList, "red".toList, "yellow".toList, "green".toList, "cyan".toList,
   "blue".toList, "purple".toList, "gray".toList]

/-- The marker text written by the add operation (`performAddAnnotation`):
`<span class="${buildAnnotationClass(colorChoice)}" data-note="${escapeDataNote(noteContent)}">${selectionText}</span>`. -/
def addReplacement (colorChoice : List Char) (noteContent selectionText : List Char) :
    List Char :=
  "<span class=\"".toList ++ buildAnnotationClass colorChoice ++ dnLit ++
    escapeDataNoteList noteContent ++ qgtLit ++ selectionText ++ closeLit

/-- The replacement written by the edit operation (`handleEditCommand`):
same shape, with the marker's original visible text. -/
def editReplacement (newColor newNote : List Char) (existing : Resolved) : List Char :=
  "<span class=\"".toList ++ buildAnnotationClass newColor ++ dnLit ++
    escapeDataNoteList newNote ++ qgtLit ++ existing.text ++ closeLit

/-- The replacement written by the color-change submenu
(`handleContextMenu`): re-encodes the existing decoded note under the
chosen color, keeping the visible text. -/
def colorChangeReplacement (optValue : List Char) (existing : Resolved) : List Char :=
  "<span class=\"".toList ++ buildAnnotationClass optValue ++ dnLit ++
    escapeDataNoteList existing.note ++ qgtLit ++ existing.text ++ closeLit

/-- The replacement written by the delete operation
(`handleDeleteCommand`): just the visible text. -/
def deleteReplacement (existing : Resolved) : List Char := existing.text


/-! ### Concrete documents and inputs used in scenario checks -/

/-- A carriage-return-free note containing every escape-triggering
character handled by `escapeDataNote` except `\r`: a line break, the
double quote, ampersand, angle brackets, apostrophe, backtick, pipe. -/
def c1Witness : String :=
  ⟨['l', '1', '\n', 'l', '2', quoteC, '&', '<', '>', aposC, btickC, '|']⟩

/-- Two adjacent markers sharing the boundary offset 47. -/
def adjDoc : List Char :=
  ("<span class=\"ob-comment\" data-note=\"a\">X</span>" ++
   "<span class=\"ob-comment red\" data-note=\"b\">Y</span>").toList

/-- A document with one marker spanning offsets 2 to 54. -/
def c5Doc : List Char :=
  ("ab" ++ "<span class=\"ob-comment\" data-note=\"hi\">World</span>").toList

/-- A marker whose stored note decodes to `"\r\r\n"`: normalizing once
rewrites the note to `"\r&#10;"`, which is still not a fixed point of
`escapeDataNote ∘ decodeDataNote`. -/
def c3Doc : List Char :=
  "<span class=\"ob-comment\" data-note=\"&#13;&#13;&#10;\">v</span>".toList

/-- A legacy marker whose raw (unescaped) note contains `'>'`, padded so
the selection offset 51 lies outside the marker span `[0, 49]`. -/
def c9Doc : List Char :=
  ("<span class=\"ob-comment\" data-note=\"a>b\">v</span>" ++ "xx").toList


/-! ### Codec lemmas: a block characterization of `escapeDataNote` -/

theorem replaceChar_append (a : Char) (r x y : List Char) :
    replaceChar a r (x ++ y) = replaceChar a r x ++ replaceChar a r y := by
  induction x with
  | nil => rfl
  | cons c t ih => simp [replaceChar, ih]

theorem esc7_append (x y : List Char) : esc7 (x ++ y) = esc7 x ++ esc7 y := by
  simp [esc7, replaceChar_append]

theorem esc7_cons (c : Char) (t : List Char) :
    esc7 (c :: t) = esc7 [c] ++ esc7 t := by
  have h : c :: t = [c] ++ t := rfl
  rw [h, esc7_append]

/-- On a single character, the seven single-character passes realise
`escChar` except that `'\n'` is left alone (it is handled by the final
`\r?\n` pass). -/
theorem esc7_single (c : Char) :
    esc7 [c] = if c = '\n' then ['\n'] else if c = '\r' then ['\r'] else escChar c := by
  by_cases h1 : c = '&'
  · subst h1; decide
  · by_cases h2 : c = quoteC
    · subst h2; decide
    · by_cases h3 : c = '<'
      · subst h3; decide
      · by_cases h4 : c = '>'
        · subst h4; decide
        · by_cases h5 : c = aposC
          · subst h5; decide
          · by_cases h6 : c = btickC
            · subst h6; decide
            · by_cases h7 : c = '|'
              · subst h7; decide
              · by_cases h8 : c = '\n'
                · subst h8; decide
                · by_cases h9 : c = '\r'
                  · subst h9; decide
                  · simp [esc7, replaceChar, escChar, h1, h2, h3, h4, h5, h6, h7, h8, h9]

theorem replaceNL_nil (r : List Char) : replaceNL r [] = [] := rfl

theorem replaceNL_cons_nl (r t) : replaceNL r ('\n' :: t) = r ++ replaceNL r t := rfl

theorem replaceNL_cons_crnl (r t) :
    replaceNL r ('\r' :: '\n' :: t) = r ++ replaceNL r t := rfl

theorem replaceNL_cons_other (r : List Char) (c : Char) (t : List Char)
    (h1 : c ≠ '\r') (h2 : c ≠ '\n') :
    replaceNL r (c :: t) = c :: replaceNL r t := by
  rw [replaceNL.eq_def]
  split
  · simp_all
  · simp_all
  · simp_all
  · rename_i h heq
    injection heq with e1 e2
    subst e1; subst e2; rfl

theorem replaceNL_cons_cr (r : List Char) (x : List Char)
    (hx : x.head? ≠ some '\n') :
    replaceNL r ('\r' :: x) = '\r' :: replaceNL r x := by
  cases x with
  | nil => rfl
  | cons c t =>
    have hc : c ≠ '\n' := by simpa using hx
    rw [replaceNL.eq_def]
    split
    · simp_all
    · simp_all
    · simp_all
    · rename_i h heq
      injection heq with e1 e2
      subst e1; subst e2; rfl

theorem replaceNL_id (r : List Char) (x : List Char)
    (hcr : '\r' ∉ x) (hnl : '\n' ∉ x) : replaceNL r x = x := by
  induction x with
  | nil => rfl
  | cons c t ih =>
    have h1 : c ≠ '\r' := fun e => hcr (e ▸ List.mem_cons_self c t)
    have h2 : c ≠ '\n' := fun e => hnl (e ▸ List.mem_cons_self c t)
    rw [replaceNL_cons_other r c t h1 h2,
      ih (fun m => hcr (List.mem_cons_of_mem c m)) (fun m => hnl (List.mem_cons_of_mem c m))]

theorem replaceNL_append (r : List Char) (x y : List Char) (hx : '\r' ∉ x) :
    replaceNL r (x ++ y) = replaceNL r x ++ replaceNL r y := by
  induction x with
  | nil => rfl
  | cons c t ih =>
    have h1 : c ≠ '\r' := fun e => hx (e ▸ List.mem_cons_self c t)
    have ih' := ih (fun m => hx (List.mem_cons_of_mem c m))
    by_cases h2 : c = '\n'
    · subst h2
      rw [List.cons_append, replaceNL_cons_nl, replaceNL_cons_nl, ih', List.append_assoc]
    · rw [List.cons_append, replaceNL_cons_other r c _ h1 h2,
        replaceNL_cons_other r c t h1 h2, ih', List.cons_append]

theorem escChar_no_cr (c : Char) (h : c ≠ '\r') : '\r' ∉ escChar c := by
  unfold escChar
  split_ifs <;> first
    | decide
    | (intro hm
       rw [List.mem_singleton] at hm
       exact h hm.symm)

theorem escChar_no_nl (c : Char) (h : c ≠ '\n') : '\n' ∉ escChar c := by
  unfold escChar
  split_ifs <;> first
    | decide
    | (intro hm
       rw [List.mem_singleton] at hm
       exact h hm.symm)

theorem escChar_ne_nil (c : Char) : escChar c ≠ [] := by
  unfold escChar
  split_ifs <;> first | decide | simp

theorem esc7_single_head (c : Char) (h : c ≠ '\n') (y : List Char) :
    (esc7 [c] ++ y).head? ≠ some '\n' := by
  rw [esc7_single, if_neg h]
  by_cases h9 : c = '\r'
  · rw [if_pos h9]; simp
  · rw [if_neg h9]
    have hne := escChar_ne_nil c
    have hnl := escChar_no_nl c h
    cases hec : escChar c with
    | nil => exact absurd hec hne
    | cons d ds =>
      have hd : d ≠ '\n' := fun e => hnl (hec ▸ e ▸ List.mem_cons_self d ds)
      simpa using hd

theorem escBlocksCR_nil : escBlocksCR [] = [] := rfl

theorem escBlocksCR_crnl (t : List Char) :
    escBlocksCR ('\r' :: '\n' :: t) = nlSeq ++ escBlocksCR t := rfl

theorem escBlocksCR_cons (c : Char) (t : List Char)
    (hcr : ∀ t1, c = '\r' → t = '\n' :: t1 → False) :
    escBlocksCR (c :: t) = escChar c ++ escBlocksCR t := by
  rw [escBlocksCR.eq_def]
  split
  · simp_all
  · rename_i heq
    injection heq with e1 e2
    exact (hcr _ e1 e2).elim
  · rename_i heq
    injection heq with e1 e2
    subst e1; subst e2; rfl

/-- The full escape, characterised block-by-block on arbitrary input. -/
theorem escape_eq_blocks (s : List Char) :
    escapeDataNoteList s = escBlocksCR s := by
  induction s using escBlocksCR.induct with
  | case1 => rfl
  | case2 t ih =>
    rw [escapeDataNoteList] at ih ⊢
    rw [show ('\r' :: '\n' :: t) = ['\r'] ++ (['\n'] ++ t) by rfl, esc7_append, esc7_append]
    rw [show esc7 ['\r'] = ['\r'] by decide, show esc7 ['\n'] = ['\n'] by decide]
    rw [show (['\r'] ++ (['\n'] ++ esc7 t) : List Char) = '\r' :: '\n' :: esc7 t by rfl]
    rw [replaceNL_cons_crnl, ih]
    rfl
  | case3 c t hshape ih =>
    rw [escapeDataNoteList] at ih ⊢
    rw [escBlocksCR_cons c t hshape, esc7_cons]
    by_cases hn : c = '\n'
    · subst hn
      rw [show esc7 ['\n'] = ['\n'] by decide]
      rw [show (['\n'] ++ esc7 t : List Char) = '\n' :: esc7 t by rfl]
      rw [replaceNL_cons_nl, ih]
      rfl
    · by_cases hr : c = '\r'
      · subst hr
        rw [show esc7 ['\r'] = ['\r'] by decide]
        rw [show (['\r'] ++ esc7 t : List Char) = '\r' :: esc7 t by rfl]
        have hhead : (esc7 t).head? ≠ some '\n' := by
          cases t with
          | nil => simp [esc7, replaceChar]
          | cons d ds =>
            have hd : d ≠ '\n' := fun e => hshape ds rfl (e ▸ rfl)
            rw [esc7_cons]
            exact esc7_single_head d hd (esc7 ds)
        rw [replaceNL_cons_cr _ _ hhead, ih]
        rfl
      · have hcrfree : '\r' ∉ esc7 [c] := by
          rw [esc7_single, if_neg hn, if_neg hr]
          exact escChar_no_cr c hr
        rw [replaceNL_append _ _ _ hcrfree, ih]
        have : replaceNL nlSeq (esc7 [c]) = escChar c := by
          rw [esc7_single, if_neg hn, if_neg hr]
          exact replaceNL_id _ _ (escChar_no_cr c hr) (escChar_no_nl c hn)
        rw [this]

/-- None of the marker-delimiter / grammar-significant characters
(double quote, angle brackets, pipe, line feed) occurs in any `escChar`
block. -/
theorem escChar_not_mem (χ : Char)
    (hχ : χ ∉ ampSeq ∧ χ ∉ quotSeq ∧ χ ∉ ltSeq ∧ χ ∉ gtSeq ∧ χ ∉ aposSeq ∧
      χ ∉ btickSeq ∧ χ ∉ pipeSeq ∧ χ ∉ nlSeq)
    (hsp : χ = quoteC ∨ χ = '<' ∨ χ = '>' ∨ χ = '|' ∨ χ = '\n') :
    ∀ c, χ ∉ escChar c := by
  intro c
  unfold escChar
  split_ifs <;> first
    | tauto
    | (intro hm
       rw [List.mem_singleton] at hm
       subst hm
       rcases hsp with h | h | h | h | h <;> simp_all)

theorem not_mem_escBlocksCR (χ : Char) (hnl : χ ∉ nlSeq)
    (hesc : ∀ c, χ ∉ escChar c) : ∀ s, χ ∉ escBlocksCR s := by
  intro s
  induction s using escBlocksCR.induct with
  | case1 => simp [escBlocksCR_nil]
  | case2 t ih =>
    rw [escBlocksCR_crnl]
    intro hm
    rcases List.mem_append.mp hm with h | h
    · exact hnl h
    · exact ih h
  | case3 c t hsh ih =>
    rw [escBlocksCR_cons c t hsh]
    intro hm
    rcases List.mem_append.mp hm with h | h
    · exact hesc c h
    · exact ih h

theorem escape_no_quote (s : List Char) : quoteC ∉ escapeDataNoteList s := by
  rw [escape_eq_blocks]
  exact not_mem_escBlocksCR quoteC (by decide)
    (escChar_not_mem _ (by decide) (by left; rfl)) s

theorem escape_no_lt (s : List Char) : '<' ∉ escapeDataNoteList s := by
  rw [escape_eq_blocks]
  exact not_mem_escBlocksCR '<' (by decide)
    (escChar_not_mem _ (by decide) (by right; left; rfl)) s

theorem escape_no_gt (s : List Char) : '>' ∉ escapeDataNoteList s := by
  rw [escape_eq_blocks]
  exact not_mem_escBlocksCR '>' (by decide)
    (escChar_not_mem _ (by decide) (by right; right; left; rfl)) s

theorem escape_no_pipe (s : List Char) : '|' ∉ escapeDataNoteList s := by
  rw [escape_eq_blocks]
  exact not_mem_escBlocksCR '|' (by decide)
    (escChar_not_mem _ (by decide) (by right; right; right; left; rfl)) s

theorem escape_no_nl (s : List Char) : '\n' ∉ escapeDataNoteList s := by
  rw [escape_eq_blocks]
  exact not_mem_escBlocksCR '\n' (by decide)
    (escChar_not_mem _ (by decide) (by right; right; right; right; rfl)) s

/-! ### Decode machinery: sequential `replaceAll` passes over escape blocks -/

theorem escBlocksCR_eq_blockMap (s : List Char) (hs : '\r' ∉ s) :
    escBlocksCR s = blockMap escChar s := by
  induction s using escBlocksCR.induct with
  | case1 => rfl
  | case2 t ih => exact absurd (List.mem_cons_self _ _) hs
  | case3 c t hsh ih =>
    rw [escBlocksCR_cons c t hsh, blockMap]
    rw [ih (fun m => hs (List.mem_cons_of_mem c m))]

theorem repAux_skip (p r : List Char) (l t : List Char) :
    repAux p r l.length (l ++ t) = repAux p r 0 t := by
  induction l with
  | nil => rfl
  | cons c l' ih => simpa [repAux] using ih

theorem replaceAll_nil (p r : List Char) : replaceAll p r [] = [] := rfl

theorem replaceAll_cons_neg (p r : List Char) (c : Char) (t : List Char)
    (h : ¬ p <+: (c :: t)) :
    replaceAll p r (c :: t) = c :: replaceAll p r t := by
  have hb : p.isPrefixOf (c :: t) = false := by
    rw [← Bool.not_eq_true, List.isPrefixOf_iff_prefix]
    exact h
  simp only [replaceAll, repAux, hb]
  rfl

theorem replaceAll_append_self (p r : List Char) (t : List Char) (hp : p ≠ []) :
    replaceAll p r (p ++ t) = r ++ replaceAll p r t := by
  cases p with
  | nil => exact absurd rfl hp
  | cons a p' =>
    have hb : (a :: p').isPrefixOf (a :: (p' ++ t)) = true := by
      rw [ List.isPrefixOf_iff_prefix]
      exact List.prefix_append (a :: p') t
    show repAux (a :: p') r 0 (a :: (p' ++ t)) = r ++ replaceAll (a :: p') r t
    rw [repAux, hb]
    simp only [if_true]
    rw [show (a :: p').length - 1 = p'.length by simp]
    rw [repAux_skip (a :: p') r p' t]
    rfl

theorem replaceAll_skip_clean (p' r : List Char) (x y : List Char)
    (hx : '&' ∉ x) :
    replaceAll ('&' :: p') r (x ++ y) = x ++ replaceAll ('&' :: p') r y := by
  induction x with
  | nil => rfl
  | cons c x' ih =>
    have hc : c ≠ '&' := fun e => hx (e ▸ List.mem_cons_self c x')
    have hnp : ¬ ('&' :: p') <+: (c :: (x' ++ y)) := by
      intro hpre
      rcases hpre with ⟨z, hz⟩
      injection hz with e1 _
      exact hc e1.symm
    rw [List.cons_append, replaceAll_cons_neg _ _ _ _ hnp,
      ih (fun m => hx (List.mem_cons_of_mem c m))]
    rfl

theorem not_prefix_append (p b y : List Char) (h1 : ¬ p <+: b) (h2 : ¬ b <+: p) :
    ¬ p <+: (b ++ y) := by
  intro hp
  rcases Nat.le_total p.length b.length with hle | hle
  · exact h1 (List.prefix_of_prefix_length_le hp (List.prefix_append b y) hle)
  · exact h2 (List.prefix_of_prefix_length_le (List.prefix_append b y) hp hle)

theorem goodBlock_skip (p' r : List Char) (b y : List Char)
    (hb : GoodBlock ('&' :: p') b) :
    replaceAll ('&' :: p') r (b ++ y) = b ++ replaceAll ('&' :: p') r y := by
  rcases hb with hclean | ⟨hhead, htail, hnp, hnb⟩
  · exact replaceAll_skip_clean p' r b y hclean
  · cases b with
    | nil => simp at hhead
    | cons a b' =>
      have ha : a = '&' := by simpa using hhead
      subst ha
      have hnp' : ¬ ('&' :: p') <+: ('&' :: b') := by
        rw [← List.isPrefixOf_iff_prefix, hnp]; simp
      have hnb' : ¬ ('&' :: b') <+: ('&' :: p') := by
        rw [← List.isPrefixOf_iff_prefix, hnb]; simp
      have hno : ¬ ('&' :: p') <+: ('&' :: (b' ++ y)) := by
        have := not_prefix_append ('&' :: p') ('&' :: b') y hnp' hnb'
        simpa using this
      rw [show (('&' :: b') ++ y : List Char) = '&' :: (b' ++ y) from rfl]
      rw [replaceAll_cons_neg _ _ _ _ hno]
      have htail' : '&' ∉ b' := by simpa using htail
      rw [replaceAll_skip_clean p' r b' y htail']
      rfl

/-- The main pass lemma: one decode pass over a block image rewrites the
blocks pointwise. -/
theorem replaceAll_blockMap (p' r : List Char) (h h' : Char → List Char)
    (H : ∀ c, (h c = '&' :: p' ∧ h' c = r) ∨ (h c = h' c ∧ GoodBlock ('&' :: p') (h c))) :
    ∀ s, replaceAll ('&' :: p') r (blockMap h s) = blockMap h' s := by
  intro s
  induction s with
  | nil => rfl
  | cons c t ih =>
    rw [blockMap, blockMap]
    rcases H c with ⟨he, he'⟩ | ⟨he, hg⟩
    · rw [he, replaceAll_append_self _ _ _ (by simp), ih, he']
    · rw [goodBlock_skip _ _ _ _ hg, ih, he]

theorem goodBlock_singleton (p' : List Char) (c : Char) (h : c ≠ '&') :
    GoodBlock ('&' :: p') [c] :=
  Or.inl (by intro hm; rw [List.mem_singleton] at hm; exact h hm.symm)

theorem escChar_generic (c : Char) (hAmp : c ≠ '&') (hQuot : c ≠ quoteC)
    (hLt : c ≠ '<') (hGt : c ≠ '>') (hApos : c ≠ aposC) (hBtick : c ≠ btickC)
    (hPipe : c ≠ '|') (hNl : c ≠ '\n') : escChar c = [c] := by
  unfold escChar
  rw [if_neg hAmp, if_neg hQuot, if_neg hLt, if_neg hGt, if_neg hApos,
    if_neg hBtick, if_neg hPipe, if_neg hNl]

theorem stageA_generic (c : Char) (hAmp : c ≠ '&') (hQuot : c ≠ quoteC)
    (hLt : c ≠ '<') (hGt : c ≠ '>') (hApos : c ≠ aposC) (hBtick : c ≠ btickC)
    (hPipe : c ≠ '|') (hNl : c ≠ '\n') : stageA c = [c] := by
  unfold stageA
  rw [if_neg hNl]
  exact escChar_generic c hAmp hQuot hLt hGt hApos hBtick hPipe hNl

theorem stageB_generic (c : Char) (hAmp : c ≠ '&') (hQuot : c ≠ quoteC)
    (hLt : c ≠ '<') (hGt : c ≠ '>') (hApos : c ≠ aposC) (hBtick : c ≠ btickC)
    (hPipe : c ≠ '|') (hNl : c ≠ '\n') : stageB c = [c] := by
  unfold stageB
  rw [if_neg hBtick]
  exact stageA_generic c hAmp hQuot hLt hGt hApos hBtick hPipe hNl

theorem stageC_generic (c : Char) (hAmp : c ≠ '&') (hQuot : c ≠ quoteC)
    (hLt : c ≠ '<') (hGt : c ≠ '>') (hApos : c ≠ aposC) (hBtick : c ≠ btickC)
    (hPipe : c ≠ '|') (hNl : c ≠ '\n') : stageC c = [c] := by
  unfold stageC
  rw [if_neg hApos]
  exact stageB_generic c hAmp hQuot hLt hGt hApos hBtick hPipe hNl

theorem stageD_generic (c : Char) (hAmp : c ≠ '&') (hQuot : c ≠ quoteC)
    (hLt : c ≠ '<') (hGt : c ≠ '>') (hApos : c ≠ aposC) (hBtick : c ≠ btickC)
    (hPipe : c ≠ '|') (hNl : c ≠ '\n') : stageD c = [c] := by
  unfold stageD
  rw [if_neg hQuot]
  exact stageC_generic c hAmp hQuot hLt hGt hApos hBtick hPipe hNl

theorem stageE_generic (c : Char) (hAmp : c ≠ '&') (hQuot : c ≠ quoteC)
    (hLt : c ≠ '<') (hGt : c ≠ '>') (hApos : c ≠ aposC) (hBtick : c ≠ btickC)
    (hPipe : c ≠ '|') (hNl : c ≠ '\n') : stageE c = [c] := by
  unfold stageE
  rw [if_neg hGt]
  exact stageD_generic c hAmp hQuot hLt hGt hApos hBtick hPipe hNl

theorem stageF_generic (c : Char) (hAmp : c ≠ '&') (hQuot : c ≠ quoteC)
    (hLt : c ≠ '<') (hGt : c ≠ '>') (hApos : c ≠ aposC) (hBtick : c ≠ btickC)
    (hPipe : c ≠ '|') (hNl : c ≠ '\n') : stageF c = [c] := by
  unfold stageF
  rw [if_neg hLt]
  exact stageE_generic c hAmp hQuot hLt hGt hApos hBtick hPipe hNl

theorem stageG_generic (c : Char) (hAmp : c ≠ '&') (hQuot : c ≠ quoteC)
    (hLt : c ≠ '<') (hGt : c ≠ '>') (hApos : c ≠ aposC) (hBtick : c ≠ btickC)
    (hPipe : c ≠ '|') (hNl : c ≠ '\n') : stageG c = [c] := by
  unfold stageG
  rw [if_neg hPipe]
  exact stageF_generic c hAmp hQuot hLt hGt hApos hBtick hPipe hNl

theorem idBlock_generic (c : Char) (_ : c ≠ '&') (_ : c ≠ quoteC)
    (_ : c ≠ '<') (_ : c ≠ '>') (_ : c ≠ aposC) (_ : c ≠ btickC)
    (_ : c ≠ '|') (_ : c ≠ '\n') : idBlock c = [c] := rfl

theorem blockMap_idBlock (s : List Char) : blockMap idBlock s = s := by
  induction s with
  | nil => rfl
  | cons c t ih => rw [blockMap, ih]; rfl

theorem decode_pass1 (s : List Char) :
    replaceAll nlSeq ['\n'] (blockMap escChar s) = blockMap stageA s := by
  rw [show nlSeq = '&' :: ['#', '1', '0', ';'] by decide]
  refine replaceAll_blockMap _ _ _ _ (fun c => ?_) s
  by_cases hAmp : c = '&'
  · subst hAmp; decide
  · by_cases hQuot : c = quoteC
    · subst hQuot; decide
    · by_cases hLt : c = '<'
      · subst hLt; decide
      · by_cases hGt : c = '>'
        · subst hGt; decide
        · by_cases hApos : c = aposC
          · subst hApos; decide
          · by_cases hBtick : c = btickC
            · subst hBtick; decide
            · by_cases hPipe : c = '|'
              · subst hPipe; decide
              · by_cases hNl : c = '\n'
                · subst hNl; decide
                · right
                  refine ⟨?_, ?_⟩
                  · rw [escChar_generic c hAmp hQuot hLt hGt hApos hBtick hPipe hNl]
                    try rw [stageA_generic c hAmp hQuot hLt hGt hApos hBtick hPipe hNl]
                  · rw [escChar_generic c hAmp hQuot hLt hGt hApos hBtick hPipe hNl]
                    exact goodBlock_singleton _ c hAmp

theorem decode_pass2 (s : List Char) :
    replaceAll crSeq ['\r'] (blockMap stageA s) = blockMap stageA s := by
  rw [show crSeq = '&' :: ['#', '1', '3', ';'] by decide]
  refine replaceAll_blockMap _ _ _ _ (fun c => ?_) s
  by_cases hAmp : c = '&'
  · subst hAmp; decide
  · by_cases hQuot : c = quoteC
    · subst hQuot; decide
    · by_cases hLt : c = '<'
      · subst hLt; decide
      · by_cases hGt : c = '>'
        · subst hGt; decide
        · by_cases hApos : c = aposC
          · subst hApos; decide
          · by_cases hBtick : c = btickC
            · subst hBtick; decide
            · by_cases hPipe : c = '|'
              · subst hPipe; decide
              · by_cases hNl : c = '\n'
                · subst hNl; decide
                · right
                  refine ⟨?_, ?_⟩
                  · rw [stageA_generic c hAmp hQuot hLt hGt hApos hBtick hPipe hNl]
                    try rw [stageA_generic c hAmp hQuot hLt hGt hApos hBtick hPipe hNl]
                  · rw [stageA_generic c hAmp hQuot hLt hGt hApos hBtick hPipe hNl]
                    exact goodBlock_singleton _ c hAmp

theorem decode_pass3 (s : List Char) :
    replaceAll btickSeq [btickC] (blockMap stageA s) = blockMap stageB s := by
  rw [show btickSeq = '&' :: ['#', '9', '6', ';'] by decide]
  refine replaceAll_blockMap _ _ _ _ (fun c => ?_) s
  by_cases hAmp : c = '&'
  · subst hAmp; decide
  · by_cases hQuot : c = quoteC
    · subst hQuot; decide
    · by_cases hLt : c = '<'
      · subst hLt; decide
      · by_cases hGt : c = '>'
        · subst hGt; decide
        · by_cases hApos : c = aposC
          · subst hApos; decide
          · by_cases hBtick : c = btickC
            · subst hBtick; decide
            · by_cases hPipe : c = '|'
              · subst hPipe; decide
              · by_cases hNl : c = '\n'
                · subst hNl; decide
                · right
                  refine ⟨?_, ?_⟩
                  · rw [stageA_generic c hAmp hQuot hLt hGt hApos hBtick hPipe hNl]
                    try rw [stageB_generic c hAmp hQuot hLt hGt hApos hBtick hPipe hNl]
                  · rw [stageA_generic c hAmp hQuot hLt hGt hApos hBtick hPipe hNl]
                    exact goodBlock_singleton _ c hAmp

theorem decode_pass4 (s : List Char) :
    replaceAll aposSeq [aposC] (blockMap stageB s) = blockMap stageC s := by
  rw [show aposSeq = '&' :: ['#', '3', '9', ';'] by decide]
  refine replaceAll_blockMap _ _ _ _ (fun c => ?_) s
  by_cases hAmp : c = '&'
  · subst hAmp; decide
  · by_cases hQuot : c = quoteC
    · subst hQuot; decide
    · by_cases hLt : c = '<'
      · subst hLt; decide
      · by_cases hGt : c = '>'
        · subst hGt; decide
        · by_cases hApos : c = aposC
          · subst hApos; decide
          · by_cases hBtick : c = btickC
            · subst hBtick; decide
            · by_cases hPipe : c = '|'
              · subst hPipe; decide
              · by_cases hNl : c = '\n'
                · subst hNl; decide
                · right
                  refine ⟨?_, ?_⟩
                  · rw [stageB_generic c hAmp hQuot hLt hGt hApos hBtick hPipe hNl]
                    try rw [stageC_generic c hAmp hQuot hLt hGt hApos hBtick hPipe hNl]
                  · rw [stageB_generic c hAmp hQuot hLt hGt hApos hBtick hPipe hNl]
                    exact goodBlock_singleton _ c hAmp

theorem decode_pass5 (s : List Char) :
    replaceAll quotSeq [quoteC] (blockMap stageC s) = blockMap stageD s := by
  rw [show quotSeq = '&' :: ['q', 'u', 'o', 't', ';'] by decide]
  refine replaceAll_blockMap _ _ _ _ (fun c => ?_) s
  by_cases hAmp : c = '&'
  · subst hAmp; decide
  · by_cases hQuot : c = quoteC
    · subst hQuot; decide
    · by_cases hLt : c = '<'
      · subst hLt; decide
      · by_cases hGt : c = '>'
        · subst hGt; decide
        · by_cases hApos : c = aposC
          · subst hApos; decide
          · by_cases hBtick : c = btickC
            · subst hBtick; decide
            · by_cases hPipe : c = '|'
              · subst hPipe; decide
              · by_cases hNl : c = '\n'
                · subst hNl; decide
                · right
                  refine ⟨?_, ?_⟩
                  · rw [stageC_generic c hAmp hQuot hLt hGt hApos hBtick hPipe hNl]
                    try rw [stageD_generic c hAmp hQuot hLt hGt hApos hBtick hPipe hNl]
                  · rw [stageC_generic c hAmp hQuot hLt hGt hApos hBtick hPipe hNl]
                    exact goodBlock_singleton _ c hAmp

theorem decode_pass6 (s : List Char) :
    replaceAll gtSeq ['>'] (blockMap stageD s) = blockMap stageE s := by
  rw [show gtSeq = '&' :: ['g', 't', ';'] by decide]
  refine replaceAll_blockMap _ _ _ _ (fun c => ?_) s
  by_cases hAmp : c = '&'
  · subst hAmp; decide
  · by_cases hQuot : c = quoteC
    · subst hQuot; decide
    · by_cases hLt : c = '<'
      · subst hLt; decide
      · by_cases hGt : c = '>'
        · subst hGt; decide
        · by_cases hApos : c = aposC
          · subst hApos; decide
          · by_cases hBtick : c = btickC
            · subst hBtick; decide
            · by_cases hPipe : c = '|'
              · subst hPipe; decide
              · by_cases hNl : c = '\n'
                · subst hNl; decide
                · right
                  refine ⟨?_, ?_⟩
                  · rw [stageD_generic c hAmp hQuot hLt hGt hApos hBtick hPipe hNl]
                    try rw [stageE_generic c hAmp hQuot hLt hGt hApos hBtick hPipe hNl]
                  · rw [stageD_generic c hAmp hQuot hLt hGt hApos hBtick hPipe hNl]
                    exact goodBlock_singleton _ c hAmp

theorem decode_pass7 (s : List Char) :
    replaceAll ltSeq ['<'] (blockMap stageE s) = blockMap stageF s := by
  rw [show ltSeq = '&' :: ['l', 't', ';'] by decide]
  refine replaceAll_blockMap _ _ _ _ (fun c => ?_) s
  by_cases hAmp : c = '&'
  · subst hAmp; decide
  · by_cases hQuot : c = quoteC
    · subst hQuot; decide
    · by_cases hLt : c = '<'
      · subst hLt; decide
      · by_cases hGt : c = '>'
        · subst hGt; decide
        · by_cases hApos : c = aposC
          · subst hApos; decide
          · by_cases hBtick : c = btickC
            · subst hBtick; decide
            · by_cases hPipe : c = '|'
              · subst hPipe; decide
              · by_cases hNl : c = '\n'
                · subst hNl; decide
                · right
                  refine ⟨?_, ?_⟩
                  · rw [stageE_generic c hAmp hQuot hLt hGt hApos hBtick hPipe hNl]
                    try rw [stageF_generic c hAmp hQuot hLt hGt hApos hBtick hPipe hNl]
                  · rw [stageE_generic c hAmp hQuot hLt hGt hApos hBtick hPipe hNl]
                    exact goodBlock_singleton _ c hAmp

theorem decode_pass8 (s : List Char) :
    replaceAll pipeSeq ['|'] (blockMap stageF s) = blockMap stageG s := by
  rw [show pipeSeq = '&' :: ['#', '1', '2', '4', ';'] by decide]
  refine replaceAll_blockMap _ _ _ _ (fun c => ?_) s
  by_cases hAmp : c = '&'
  · subst hAmp; decide
  · by_cases hQuot : c = quoteC
    · subst hQuot; decide
    · by_cases hLt : c = '<'
      · subst hLt; decide
      · by_cases hGt : c = '>'
        · subst hGt; decide
        · by_cases hApos : c = aposC
          · subst hApos; decide
          · by_cases hBtick : c = btickC
            · subst hBtick; decide
            · by_cases hPipe : c = '|'
              · subst hPipe; decide
              · by_cases hNl : c = '\n'
                · subst hNl; decide
                · right
                  refine ⟨?_, ?_⟩
                  · rw [stageF_generic c hAmp hQuot hLt hGt hApos hBtick hPipe hNl]
                    try rw [stageG_generic c hAmp hQuot hLt hGt hApos hBtick hPipe hNl]
                  · rw [stageF_generic c hAmp hQuot hLt hGt hApos hBtick hPipe hNl]
                    exact goodBlock_singleton _ c hAmp

theorem decode_pass9 (s : List Char) :
    replaceAll ampSeq ['&'] (blockMap stageG s) = blockMap idBlock s := by
  rw [show ampSeq = '&' :: ['a', 'm', 'p', ';'] by decide]
  refine replaceAll_blockMap _ _ _ _ (fun c => ?_) s
  by_cases hAmp : c = '&'
  · subst hAmp; decide
  · by_cases hQuot : c = quoteC
    · subst hQuot; decide
    · by_cases hLt : c = '<'
      · subst hLt; decide
      · by_cases hGt : c = '>'
        · subst hGt; decide
        · by_cases hApos : c = aposC
          · subst hApos; decide
          · by_cases hBtick : c = btickC
            · subst hBtick; decide
            · by_cases hPipe : c = '|'
              · subst hPipe; decide
              · by_cases hNl : c = '\n'
                · subst hNl; decide
                · right
                  refine ⟨?_, ?_⟩
                  · rw [stageG_generic c hAmp hQuot hLt hGt hApos hBtick hPipe hNl]
                    try rw [idBlock_generic c hAmp hQuot hLt hGt hApos hBtick hPipe hNl]
                  · rw [stageG_generic c hAmp hQuot hLt hGt hApos hBtick hPipe hNl]
                    exact goodBlock_singleton _ c hAmp

/-- Decoding the block image restores the original characters. -/
theorem decode_blocks (s : List Char) :
    decodeDataNoteList (blockMap escChar s) = s := by
  unfold decodeDataNoteList
  rw [decode_pass1, decode_pass2, decode_pass3, decode_pass4, decode_pass5,
    decode_pass6, decode_pass7, decode_pass8, decode_pass9, blockMap_idBlock]

/-- Round trip of the codec on carriage-return-free input. -/
theorem decode_escape_no_cr (s : List Char) (hs : '\r' ∉ s) :
    decodeDataNoteList (escapeDataNoteList s) = s := by
  rw [escape_eq_blocks, escBlocksCR_eq_blockMap s hs, decode_blocks]

/-! ### Matcher decomposition lemmas -/

theorem noteSplit_decomp (s : List Char) :
    ∀ n r, noteSplit s = some (n, r) → s = n ++ qgtLit ++ r := by
  induction s with
  | nil => intro n r h; exact absurd h (by simp [noteSplit])
  | cons c t ih =>
    intro n r h
    rw [noteSplit] at h
    split at h
    · rename_i hcond
      injection h with h'
      injection h' with h1 h2
      subst h1; subst h2
      have hpre : qgtLit <+: (c :: t) := by
        rw [← List.isPrefixOf_iff_prefix]
        exact (Bool.and_eq_true ..).mp hcond |>.1
      rcases hpre with ⟨z, hz⟩
      rw [← hz]
      rw [show ((qgtLit ++ z).drop 2 : List Char) = z from List.drop_left qgtLit z]
      rfl
    · rcases Option.map_eq_some'.mp h with ⟨⟨n', r'⟩, hn, he⟩
      injection he with e1 e2
      subst e1; subst e2
      rw [ih n' r' hn]
      rfl

theorem visSplit_decomp (s : List Char) :
    ∀ v r, visSplit s = some (v, r) →
      s = v ++ closeLit ++ r ∧ containsSeq closeLit v = false := by
  induction s with
  | nil => intro v r h; exact absurd h (by simp [visSplit])
  | cons c t ih =>
    intro v r h
    rw [visSplit] at h
    split at h
    · rename_i hcond
      injection h with h'
      injection h' with h1 h2
      subst h1; subst h2
      have hpre : closeLit <+: (c :: t) := by
        rw [← List.isPrefixOf_iff_prefix]; exact hcond
      rcases hpre with ⟨z, hz⟩
      constructor
      · rw [← hz]
        rw [show ((closeLit ++ z).drop 7 : List Char) = z from List.drop_left closeLit z]
        rfl
      · decide
    · rename_i hcond
      rcases Option.map_eq_some'.mp h with ⟨⟨v', r'⟩, hv, he⟩
      injection he with e1 e2
      rcases ih v' r' hv with ⟨hdec, hfree⟩
      constructor
      · rw [← e1, ← e2, hdec]; rfl
      · rw [← e1, containsSeq, hfree]
        have hnp : closeLit.isPrefixOf (c :: v') = false := by
          rw [← Bool.not_eq_true, List.isPrefixOf_iff_prefix]
          intro hp
          apply hcond
          rw [ List.isPrefixOf_iff_prefix]
          have hext : (c :: v') <+: (c :: t) := by
            rw [hdec]
            exact ⟨closeLit ++ r', by simp⟩
          exact hp.trans hext
        rw [hnp]
        rfl

theorem parseColor_decomp (s : List Char) (copt : Option (List Char)) (s2 : List Char)
    (h : parseColor s = some (copt, s2)) :
    ∃ cp, s = cp ++ dnLit ++ s2 ∧
      ((copt = none ∧ cp = []) ∨
        (∃ ws w, copt = some w ∧ cp = ws ++ w ∧ ws ≠ [] ∧ w ≠ [] ∧
          (∀ x ∈ ws, isJsSpace x = true) ∧ (∀ x ∈ w, isWordDash x = true))) := by
  rw [parseColor] at h
  split at h
  · rename_i hcond
    injection h with h'
    injection h' with h1 h2
    subst h1; subst h2
    simp only [Bool.and_eq_true, Bool.not_eq_true', List.isEmpty_eq_false] at hcond
    obtain ⟨⟨hws, hw⟩, hdn⟩ := hcond
    refine ⟨s.takeWhile isJsSpace ++ (s.dropWhile isJsSpace).takeWhile isWordDash, ?_, ?_⟩
    · have e1 := List.takeWhile_append_dropWhile isJsSpace s
      have e2 := List.takeWhile_append_dropWhile isWordDash (s.dropWhile isJsSpace)
      have hpre : dnLit <+: ((s.dropWhile isJsSpace).dropWhile isWordDash) := by
        rw [← List.isPrefixOf_iff_prefix]; exact hdn
      rcases hpre with ⟨z, hz⟩
      have hdrop : ((s.dropWhile isJsSpace).dropWhile isWordDash).drop 13 = z := by
        rw [← hz]; exact List.drop_left dnLit z
      rw [hdrop]
      simp only [List.append_assoc]
      rw [hz, e2, e1]
    · right
      exact ⟨s.takeWhile isJsSpace, (s.dropWhile isJsSpace).takeWhile isWordDash,
        rfl, rfl, hws, hw, fun x hx => List.mem_takeWhile_imp hx,
        fun x hx => List.mem_takeWhile_imp hx⟩
  · split at h
    · rename_i hdn
      injection h with h'
      injection h' with h1 h2
      subst h1; subst h2
      have hpre : dnLit <+: s := by rw [← List.isPrefixOf_iff_prefix]; exact hdn
      rcases hpre with ⟨z, hz⟩
      have hdrop : s.drop 13 = z := by rw [← hz]; exact List.drop_left dnLit z
      exact ⟨[], by rw [hdrop, List.nil_append, hz], Or.inl ⟨rfl, rfl⟩⟩
    · exact absurd h (by simp)

/-- Full structural decomposition of a successful match attempt. -/
theorem matchParse_decomp (s : List Char) (copt : Option (List Char))
    (note vis : List Char) (len : Nat)
    (h : matchParse s = some (copt, note, vis, len)) :
    ∃ cp s4,
      s = openLit ++ cp ++ dnLit ++ note ++ qgtLit ++ vis ++ closeLit ++ s4 ∧
      len = 45 + cp.length + note.length + vis.length ∧
      containsSeq closeLit vis = false ∧
      ((copt = none ∧ cp = []) ∨
        (∃ ws w, copt = some w ∧ cp = ws ++ w ∧ ws ≠ [] ∧ w ≠ [] ∧
          (∀ x ∈ ws, isJsSpace x = true) ∧ (∀ x ∈ w, isWordDash x = true))) := by
  rw [matchParse] at h
  split at h
  · rename_i hopen
    split at h
    · exact absurd h (by simp)
    · rename_i pc color s2 hpc
      split at h
      · exact absurd h (by simp)
      · rename_i ns note' s3 hns
        split at h
        · exact absurd h (by simp)
        · rename_i vs vis' s4 hvs
          injection h with h'
          injection h' with e1 h'
          injection h' with e2 h'
          injection h' with e3 e4
          subst e1; subst e2; subst e3; subst e4
          rcases parseColor_decomp _ _ _ hpc with ⟨cp, hcp, hcolor⟩
          have hnote := noteSplit_decomp _ _ _ hns
          rcases visSplit_decomp _ _ _ hvs with ⟨hvis, hfree⟩
          have hopen' : openLit <+: s := by
            rw [← List.isPrefixOf_iff_prefix]; exact hopen
          rcases hopen' with ⟨z, hz⟩
          have hzdrop : s.drop 23 = z := by
            rw [← hz]; exact List.drop_left openLit z
          have hzeq : z = cp ++ dnLit ++ s2 := by rw [← hzdrop]; exact hcp
          have hs : s = openLit ++ cp ++ dnLit ++ note' ++ qgtLit ++ vis' ++ closeLit ++ s4 := by
            rw [← hz, hzeq, hnote, hvis]
            simp [List.append_assoc]
          refine ⟨cp, s4, hs, ?_, hfree, hcolor⟩
          have l1 : openLit.length = 23 := by decide
          have l2 : dnLit.length = 13 := by decide
          have l3 : qgtLit.length = 2 := by decide
          have l4 : closeLit.length = 7 := by decide
          have hlen : s.length =
              openLit.length + (cp.length + (dnLit.length + (note'.length +
                (qgtLit.length + (vis'.length + (closeLit.length + s4.length)))))) := by
            rw [hs]
            simp only [List.length_append]
            omega
          omega
  · exact absurd h (by simp)

theorem matchParse_len_bounds (s : List Char) (copt : Option (List Char))
    (note vis : List Char) (len : Nat)
    (h : matchParse s = some (copt, note, vis, len)) :
    45 ≤ len ∧ len ≤ s.length := by
  rcases matchParse_decomp s copt note vis len h with ⟨cp, s4, hs, hlen, _, _⟩
  constructor
  · omega
  · have l1 : openLit.length = 23 := by decide
    have l2 : dnLit.length = 13 := by decide
    have l3 : qgtLit.length = 2 := by decide
    have l4 : closeLit.length = 7 := by decide
    have hlens : s.length =
        openLit.length + (cp.length + (dnLit.length + (note.length +
          (qgtLit.length + (vis.length + (closeLit.length + s4.length)))))) := by
      rw [hs]
      simp only [List.length_append]
      omega
    omega

/-- Every reported match carries a successful parse at its own index,
which starts at or after the scan position. -/
theorem mem_scanAux (text : List Char) :
    ∀ fuel i m, m ∈ scanAux text fuel i →
      i ≤ m.index ∧
      matchParse (text.drop m.index) = some (m.color, m.note, m.visible, m.len) := by
  intro fuel
  induction fuel with
  | zero => intro i m hm; exact absurd hm (by simp [scanAux])
  | succ fuel ih =>
    intro i m hm
    rw [scanAux] at hm
    split at hm
    · exact absurd hm (by simp)
    · split at hm
      · rename_i pr color note vis len hp
        rcases List.mem_cons.mp hm with he | ht
        · subst he
          exact ⟨Nat.le_refl i, hp⟩
        · rcases ih (i + len) m ht with ⟨hge, hparse⟩
          exact ⟨Nat.le_trans (Nat.le_add_right i len) hge, hparse⟩
      · rcases ih (i + 1) m hm with ⟨hge, hparse⟩
        exact ⟨Nat.le_trans (Nat.le_succ i) hge, hparse⟩

/-- The exec loop reports matches in strictly increasing, non-overlapping
order. -/
theorem scanAux_pairwise (text : List Char) :
    ∀ fuel i, List.Pairwise (fun a b => a.index < b.index ∧ endIdx a ≤ b.index)
      (scanAux text fuel i) := by
  intro fuel
  induction fuel with
  | zero => intro i; simp [scanAux]
  | succ fuel ih =>
    intro i
    rw [scanAux]
    split
    · simp
    · split
      · rename_i pr color note vis len hp
        refine List.Pairwise.cons ?_ (ih (i + len))
        intro b hb
        rcases mem_scanAux text fuel (i + len) b hb with ⟨hge, _⟩
        have h45 := (matchParse_len_bounds _ _ _ _ _ hp).1
        constructor
        · show i < b.index
          omega
        · show i + len ≤ b.index
          exact hge
      · exact ih (i + 1)

/-- The loop of `findAnnotationAtCursor` returns exactly the first scanned
match whose closed span contains the offset. -/
theorem findAtAux_eq_find (text : List Char) (off : Nat) :
    ∀ fuel i, findAtAux text off fuel i =
      ((scanAux text fuel i).find? (spanContains off)).map resolveMatch := by
  intro fuel
  induction fuel with
  | zero => intro i; simp [findAtAux, scanAux]
  | succ fuel ih =>
    intro i
    rw [findAtAux, scanAux]
    split
    · simp
    · split
      · rename_i pr color note vis len hp
        by_cases hc : spanContains off ⟨i, color, note, vis, len⟩ = true
        · rw [List.find?_cons_of_pos _ hc]
          have hc' : (i ≤ off && off ≤ i + len) = true := hc
          rw [if_pos hc']
          rfl
        · rw [List.find?_cons_of_neg _ (by simpa using hc)]
          have hc' : (i ≤ off && off ≤ i + len) = false := by
            rw [← Bool.not_eq_true]
            exact hc
          rw [if_neg (by simp [hc'] : ¬ (i ≤ off && off ≤ i + len) = true)]
          exact ih (i + len)
      · exact ih (i + 1)

/-! ### Claim theorems -/

/-- C1 (counterexample): the round-trip law fails at the concrete input
`"\r\n"`: `escapeDataNote` collapses the CRLF pair to `"&#10;"`, which
decodes to `"\n"`, not `"\r\n"`. -/
theorem c1_roundtrip_counterexample :
    decodeDataNote (escapeDataNote "\r\n") = "\n" ∧ ("\n" : String) ≠ "\r\n" := by
  constructor
  · decide
  · decide

/-- C1 (amended): for every string x that contains no carriage return,
`decodeDataNote (escapeDataNote x) = x`; this covers the empty string,
all-newline strings, and strings containing every escape-triggering
character other than CR. -/
theorem c1_roundtrip_of_no_cr (s : String) (h : '\r' ∉ s.data) :
    decodeDataNote (escapeDataNote s) = s := by
  show (⟨decodeDataNoteList (escapeDataNoteList s.data)⟩ : String) = s
  rw [decode_escape_no_cr s.data h]

/-- C1 (witness): the amended round trip at a concrete CR-free input
containing a line feed and all the other escape-triggering characters. -/
theorem c1_roundtrip_of_no_cr_witness :
    '\r' ∉ c1Witness.data ∧ decodeDataNote (escapeDataNote c1Witness) = c1Witness :=
  ⟨by decide, c1_roundtrip_of_no_cr c1Witness (by decide)⟩

/-- C2: for every string x, `escapeDataNote x` contains no raw double
quote, `<`, `>`, line feed, or `|`: each of these characters only ever
appears in the output inside an escape sequence. -/
theorem c2_escape_output_has_no_raw_delimiters (x : String) :
    quoteC ∉ (escapeDataNote x).data ∧ '<' ∉ (escapeDataNote x).data ∧
    '>' ∉ (escapeDataNote x).data ∧ '\n' ∉ (escapeDataNote x).data ∧
    '|' ∉ (escapeDataNote x).data :=
  ⟨escape_no_quote x.data, escape_no_lt x.data, escape_no_gt x.data,
   escape_no_nl x.data, escape_no_pipe x.data⟩

/-- C3: the code violates the idempotence invariant.  At `c3Doc`
(a marker whose stored note is `&#13;&#13;&#10;`, decoding to
`"\r\r\n"`) the first normalization pass reports a change and rewrites
the note to the raw `"\r&#10;"`; the second pass still reports
`changed = true` (rewriting the note again, to `"&#10;"`), where the
claim requires `changed = false` and an unchanged text; only the third
pass reaches a fixpoint. -/
theorem c3_normalize_not_idempotent :
    (normalizeAnnotationsInText c3Doc).2 = true ∧
    (normalizeAnnotationsInText c3Doc).1 =
      ("<span class=\"ob-comment\" data-note=\"\r&#10;\">v</span>").toList ∧
    (normalizeAnnotationsInText (normalizeAnnotationsInText c3Doc).1).2 = true ∧
    (normalizeAnnotationsInText (normalizeAnnotationsInText c3Doc).1).1 =
      ("<span class=\"ob-comment\" data-note=\"&#10;\">v</span>").toList ∧
    (normalizeAnnotationsInText
      (normalizeAnnotationsInText (normalizeAnnotationsInText c3Doc).1).1).2 = false := by
  refine ⟨by decide, by decide, by decide, by decide, by decide⟩

/-- C5: `findAnnotationAtCursor` returns exactly the first scanned match
whose closed span `[startOffset, endOffset]` contains the offset,
resolved to its span, decoded note, color tag and visible text, and
`none` otherwise (the function is total, hence never throws).  The
conjuncts on `c5Doc` (marker span `[2, 54]`) witness the closed-interval
edge policy at both boundaries. -/
theorem c5_find_annotation_at_cursor_spec :
    (∀ (text : List Char) (off : Nat),
      findAnnotationAtCursor text off =
        ((allMatches text).find? (spanContains off)).map resolveMatch) ∧
    findAnnotationAtCursor c5Doc 1 = none ∧
    (findAnnotationAtCursor c5Doc 2).isSome = true ∧
    (findAnnotationAtCursor c5Doc 54).isSome = true ∧
    findAnnotationAtCursor c5Doc 55 = none := by
  refine ⟨fun text off => findAtAux_eq_find text off (text.length + 1) 0, ?_, ?_, ?_, ?_⟩
  · decide
  · decide
  · decide
  · decide

/-- C6: the matches produced by scanning any document with
`COMMENT_REGEX` are in strictly increasing position order with
non-intersecting spans, every reported span is nonempty (at least 45
characters) and lies within the document, and on `adjDoc` the two
adjacent markers sharing boundary offset 47 are reported as two distinct
non-overlapping matches. -/
theorem c6_matches_ordered_non_overlapping :
    (∀ text : List Char,
      List.Pairwise (fun a b => a.index < b.index ∧ endIdx a ≤ b.index)
        (allMatches text)) ∧
    (∀ (text : List Char), ∀ m ∈ allMatches text,
      m.index + 45 ≤ endIdx m ∧ endIdx m ≤ text.length) ∧
    allMatches adjDoc =
      [⟨0, none, "a".toList, "X".toList, 47⟩,
       ⟨47, some "red".toList, "b".toList, "Y".toList, 51⟩] := by
  refine ⟨fun text => scanAux_pairwise text (text.length + 1) 0, ?_, by decide⟩
  intro text m hm
  have hp := (mem_scanAux text (text.length + 1) 0 m hm).2
  obtain ⟨h45, hle⟩ := matchParse_len_bounds _ _ _ _ _ hp
  have hdroplen : (text.drop m.index).length = text.length - m.index := by
    simp [List.length_drop]
  rw [hdroplen] at hle
  constructor
  · show m.index + 45 ≤ m.index + m.len
    omega
  · show m.index + m.len ≤ text.length
    omega

/-- C10: `escapeDataNote` maps both `"\r\n"` and `"\n"` to `"&#10;"`,
leaves a lone carriage return unescaped, and is therefore not
injective. -/
theorem c10_escape_collapses_crlf_not_injective :
    escapeDataNote "\r\n" = "&#10;" ∧ escapeDataNote "\n" = "&#10;" ∧
    escapeDataNote "\r" = "\r" ∧ escapeDataNote "a\rb" = "a\rb" ∧
    ("\r\n" : String) ≠ "\n" ∧
    ∃ x y : String, x ≠ y ∧ escapeDataNote x = escapeDataNote y := by
  refine ⟨by decide, by decide, by decide, by decide, by decide, "\r\n", "\n", by decide, by decide⟩

/-! ### Normalizer refinement lemmas -/

theorem drop_take_one (l : List Char) (i : Nat) :
    (l.drop i).take 1 ++ l.drop (i + 1) = l.drop i := by
  have hd : l.drop (i + 1) = (l.drop i).drop 1 := by
    rw [List.drop_drop]
  rw [hd]
  cases h : l.drop i with
  | nil => rfl
  | cons c rest => rfl

theorem take_split_one (l : List Char) (i k : Nat) (hk : 1 ≤ k) :
    (l.drop i).take k = (l.drop i).take 1 ++ (l.drop (i + 1)).take (k - 1) := by
  have hd : l.drop (i + 1) = (l.drop i).drop 1 := by rw [List.drop_drop]
  rw [hd]
  cases h : l.drop i with
  | nil => simp
  | cons c rest =>
    rcases Nat.exists_eq_add_of_le hk with ⟨k', hk'⟩
    subst hk'
    simp [List.take_succ_cons, Nat.add_comm 1 k']

theorem normSpec_shift (text : List Char) (ms : List RawMatch) (i : Nat)
    (hms : ∀ m ∈ ms, i + 1 ≤ m.index) :
    normSpec text ms i = (text.drop i).take 1 ++ normSpec text ms (i + 1) := by
  cases ms with
  | nil =>
    show text.drop i = _
    rw [normSpec, drop_take_one]
  | cons m ms' =>
    have hm : i + 1 ≤ m.index := hms m (List.mem_cons_self m ms')
    rw [normSpec, normSpec]
    rw [take_split_one text i (m.index - i) (by omega)]
    rw [show m.index - i - 1 = m.index - (i + 1) by omega]
    simp [List.append_assoc]

theorem normAux_eq_normSpec (text : List Char) :
    ∀ fuel i, (normAux text fuel i).1 = normSpec text (scanAux text fuel i) i := by
  intro fuel
  induction fuel with
  | zero => intro i; rfl
  | succ fuel ih =>
    intro i
    rw [normAux, scanAux]
    split
    · rfl
    · split
      · rename_i pr color note vis len hp
        show rebuildMarker _ ++ (normAux text fuel (i + len)).1 = _
        rw [normSpec]
        rw [show (⟨i, color, note, vis, len⟩ : RawMatch).index - i = 0 by simp]
        rw [List.take_zero, List.nil_append, ih (i + len)]
        rfl
      · show (text.drop i).take 1 ++ (normAux text fuel (i + 1)).1 = _
        rw [ih (i + 1)]
        rw [normSpec_shift text _ i
          (fun m hm => (mem_scanAux text fuel (i + 1) m hm).1)]

theorem normAux_unchanged (text : List Char) :
    ∀ fuel i, (normAux text fuel i).2 = false →
      (normAux text fuel i).1 = text.drop i := by
  intro fuel
  induction fuel with
  | zero => intro i _; rfl
  | succ fuel ih =>
    intro i hflag
    rw [normAux]
    rw [normAux] at hflag
    split
    · rfl
    · rename_i hlen
      rw [if_neg hlen] at hflag
      split
      · rename_i pr color note vis len hp
        rw [hp] at hflag
        simp only [Bool.or_eq_false_iff, Bool.not_eq_false'] at hflag
        obtain ⟨hrest, heq⟩ := hflag
        show rebuildMarker _ ++ (normAux text fuel (i + len)).1 = text.drop i
        rw [ih (i + len) hrest]
        have heq' : rebuildMarker ⟨i, color, note, vis, len⟩ = (text.drop i).take len := by
          exact (beq_iff_eq ..).mp heq
        rw [heq']
        rw [show text.drop (i + len) = (text.drop i).drop len by rw [List.drop_drop, Nat.add_comm]]
        exact List.take_append_drop len (text.drop i)
      · rename_i hp
        rw [hp] at hflag
        show (text.drop i).take 1 ++ (normAux text fuel (i + 1)).1 = text.drop i
        rw [ih (i + 1) hflag, drop_take_one]

/-- The normalized document is exactly: the original text outside the
match spans, interleaved with the rebuilt markers. -/
theorem normalize_eq_normSpec (text : List Char) :
    (normalizeAnnotationsInText text).1 = normSpec text (allMatches text) 0 := by
  unfold normalizeAnnotationsInText
  by_cases hc : (normAux text (text.length + 1) 0).2 = true
  · simp only [hc, if_true]
    exact normAux_eq_normSpec text (text.length + 1) 0
  · have hc' : (normAux text (text.length + 1) 0).2 = false := by
      rw [← Bool.not_eq_true]; exact hc
    simp only [hc', if_false, Bool.false_eq_true]
    rw [show allMatches text = scanAux text (text.length + 1) 0 from rfl]
    rw [← normAux_eq_normSpec text (text.length + 1) 0]
    rw [normAux_unchanged text (text.length + 1) 0 hc']
    rfl

/-! ### Re-matching well-formed markers -/

theorem wordDash_not_space (c : Char) (h : isWordDash c = true) :
    isJsSpace c = false := by
  rw [← Bool.not_eq_true]
  intro hs
  simp only [isWordDash, Bool.or_eq_true, Bool.and_eq_true, decide_eq_true_eq] at h
  simp only [isJsSpace, Bool.or_eq_true, Bool.and_eq_true, decide_eq_true_eq] at hs
  omega

theorem wordDash_not_quote (c : Char) (h : isWordDash c = true) : c ≠ quoteC := by
  intro he
  subst he
  exact absurd h (by decide)

theorem takeWhile_split (p : Char → Bool) (l₁ : List Char) (c : Char) (l₂ : List Char)
    (h1 : ∀ x ∈ l₁, p x = true) (h2 : p c = false) :
    (l₁ ++ c :: l₂).takeWhile p = l₁ ∧ (l₁ ++ c :: l₂).dropWhile p = c :: l₂ := by
  induction l₁ with
  | nil => simp [List.takeWhile_cons, List.dropWhile_cons, h2]
  | cons a l₁' ih =>
    have ha : p a = true := h1 a (List.mem_cons_self a l₁')
    have ih' := ih (fun x hx => h1 x (List.mem_cons_of_mem a hx))
    simp [List.takeWhile_cons, List.dropWhile_cons, ha, ih'.1, ih'.2]

theorem containsSeq_cons (p : List Char) (c : Char) (t : List Char) :
    containsSeq p (c :: t) = (p.isPrefixOf (c :: t) || containsSeq p t) := rfl

theorem containsSeq_append_right (p : List Char) (hp : p ≠ []) :
    ∀ u w, containsSeq p (u ++ p ++ w) = true := by
  intro u
  induction u with
  | nil =>
    intro w
    cases p with
    | nil => exact absurd rfl hp
    | cons a t =>
      show containsSeq (a :: t) (a :: (t ++ w)) = true
      rw [containsSeq_cons]
      have hpre : (a :: t).isPrefixOf (a :: (t ++ w)) = true := by
        rw [ List.isPrefixOf_iff_prefix]
        exact ⟨w, by simp⟩
      rw [hpre]
      simp
  | cons c u' ih =>
    intro w
    have e : (c :: u') ++ p ++ w = c :: (u' ++ p ++ w) := by simp
    rw [e, containsSeq_cons, ih w]
    simp

theorem containsSeq_false_tail (p : List Char) (c : Char) (t : List Char)
    (h : containsSeq p (c :: t) = false) :
    p.isPrefixOf (c :: t) = false ∧ containsSeq p t = false := by
  rw [containsSeq_cons] at h
  exact (Bool.or_eq_false_iff ..).mp h

theorem closeLit_no_border :
    ∀ k, k < 7 → 1 ≤ k → (closeLit.drop k).isPrefixOf closeLit = false := by
  decide

theorem containsSeq_of_leading (p u : List Char) (hp : p ≠ []) (h : p <+: u) :
    containsSeq p u = true := by
  cases u with
  | nil =>
    rcases h with ⟨z, hz⟩
    cases p with
    | nil => exact absurd rfl hp
    | cons a t => exact absurd hz (by simp)
  | cons c t =>
    rw [containsSeq_cons]
    rw [← List.isPrefixOf_iff_prefix] at h
    rw [h]
    simp

theorem closeLit_no_cross (u w : List Char) (hu : u ≠ [])
    (hnc : containsSeq closeLit u = false) :
    ¬ closeLit <+: (u ++ (closeLit ++ w)) := by
  intro hp
  rcases Nat.lt_or_ge u.length 7 with hlt | hge
  · have h1 : 1 ≤ u.length := List.length_pos.mpr hu
    rcases hp with ⟨z, hz⟩
    have hd : closeLit.drop u.length ++ z = closeLit ++ w := by
      have hcongr := congrArg (List.drop u.length) hz
      rw [List.drop_append_eq_append_drop, List.drop_append_eq_append_drop] at hcongr
      rw [show u.length - closeLit.length = 0 by
        have : closeLit.length = 7 := by decide
        omega] at hcongr
      simpa using hcongr
    have hpre2 : closeLit.drop u.length <+: closeLit := by
      refine List.prefix_of_prefix_length_le ⟨z, hd⟩ (List.prefix_append closeLit w) ?_
      simp [List.length_drop]
    rw [← List.isPrefixOf_iff_prefix] at hpre2
    rw [closeLit_no_border u.length hlt h1] at hpre2
    exact absurd hpre2 (by simp)
  · have hcu : closeLit <+: u := by
      refine List.prefix_of_prefix_length_le hp (List.prefix_append u (closeLit ++ w)) ?_
      have : closeLit.length = 7 := by decide
      omega
    rw [containsSeq_of_leading closeLit u (by decide) hcu] at hnc
    exact absurd hnc (by simp)

theorem visSplit_cons (c : Char) (t : List Char) :
    visSplit (c :: t) =
      if closeLit.isPrefixOf (c :: t) then some ([], (c :: t).drop 7)
      else (visSplit t).map (fun pr => (c :: pr.1, pr.2)) := rfl

theorem noteSplit_cons (c : Char) (t : List Char) :
    noteSplit (c :: t) =
      if qgtLit.isPrefixOf (c :: t) && containsSeq closeLit ((c :: t).drop 2) then
        some ([], (c :: t).drop 2)
      else (noteSplit t).map (fun pr => (c :: pr.1, pr.2)) := rfl

theorem visSplit_append (vis w : List Char) (hv : containsSeq closeLit vis = false) :
    visSplit (vis ++ closeLit ++ w) = some (vis, w) := by
  induction vis with
  | nil =>
    have e : ([] : List Char) ++ closeLit ++ w = '<' :: ("/span>".toList ++ w) := by
      rw [show closeLit = '<' :: "/span>".toList by decide]
      rfl
    rw [e, visSplit_cons]
    have hc : closeLit.isPrefixOf ('<' :: ("/span>".toList ++ w)) = true := by
      rw [ List.isPrefixOf_iff_prefix]
      exact ⟨w, by rw [show closeLit = '<' :: "/span>".toList by decide]; rfl⟩
    rw [hc, if_pos rfl]
    have hdrop : ('<' :: ("/span>".toList ++ w)).drop 7 = w := by
      rw [show ('<' :: ("/span>".toList ++ w) : List Char) = closeLit ++ w by
        rw [show closeLit = '<' :: "/span>".toList by decide]; rfl]
      rw [show (7 : Nat) = closeLit.length by decide]
      exact List.drop_left closeLit w
    rw [hdrop]
  | cons c vis' ih =>
    obtain ⟨hnp', hv'⟩ := containsSeq_false_tail closeLit c vis' hv
    show visSplit (c :: (vis' ++ closeLit ++ w)) = some (c :: vis', w)
    rw [visSplit_cons]
    have hnc : closeLit.isPrefixOf (c :: (vis' ++ closeLit ++ w)) = false := by
      rw [← Bool.not_eq_true, List.isPrefixOf_iff_prefix]
      have hcross := closeLit_no_cross (c :: vis') w (by simp) hv
      intro hcontra
      apply hcross
      simpa [List.append_assoc] using hcontra
    rw [hnc, if_neg (by simp), ih hv']
    rfl

theorem noteSplit_append (note rest : List Char) (hq : quoteC ∉ note)
    (hr : containsSeq closeLit rest = true) :
    noteSplit (note ++ qgtLit ++ rest) = some (note, rest) := by
  induction note with
  | nil =>
    have e : ([] : List Char) ++ qgtLit ++ rest = quoteC :: ('>' :: rest) := by
      rw [show qgtLit = [quoteC, '>'] by decide]
      rfl
    rw [e, noteSplit_cons]
    have hc : qgtLit.isPrefixOf (quoteC :: '>' :: rest) = true := by
      rw [ List.isPrefixOf_iff_prefix]
      exact ⟨rest, by rw [show qgtLit = [quoteC, '>'] by decide]; rfl⟩
    have hdrop : (quoteC :: '>' :: rest).drop 2 = rest := rfl
    rw [hc, hdrop, hr]
    rfl
  | cons c note' ih =>
    have hc : c ≠ quoteC := fun e => hq (e ▸ List.mem_cons_self c note')
    have ih' := ih (fun m => hq (List.mem_cons_of_mem c m))
    show noteSplit (c :: (note' ++ qgtLit ++ rest)) = some (c :: note', rest)
    rw [noteSplit_cons]
    have h1 : qgtLit.isPrefixOf (c :: (note' ++ qgtLit ++ rest)) = false := by
      rw [← Bool.not_eq_true, List.isPrefixOf_iff_prefix]
      intro hpre
      rcases hpre with ⟨z, hz⟩
      rw [show qgtLit = [quoteC, '>'] by decide] at hz
      injection hz with e1 _
      exact hc e1.symm
    rw [h1]
    rw [if_neg (by simp)]
    rw [ih']
    rfl

theorem matchParse_eval (s : List Char) (color : Option (List Char))
    (s2 note s3 vis s4 : List Char)
    (hopen : openLit.isPrefixOf s = true)
    (hpc : parseColor (s.drop 23) = some (color, s2))
    (hns : noteSplit s2 = some (note, s3))
    (hvs : visSplit s3 = some (vis, s4)) :
    matchParse s = some (color, note, vis, s.length - s4.length) := by
  rw [matchParse, if_pos hopen, hpc]
  dsimp only []
  rw [hns]
  dsimp only []
  rw [hvs]

theorem parseColor_dnlit (rest : List Char) :
    parseColor (dnLit ++ rest) = some (none, rest) := by
  rw [parseColor]
  have hws : (dnLit ++ rest).takeWhile isJsSpace = [] := by
    rw [show dnLit ++ rest = quoteC :: (" data-note=\"".toList ++ rest) by
      rw [show dnLit = quoteC :: " data-note=\"".toList by decide]; rfl]
    rw [List.takeWhile_cons_of_neg (by decide)]
  have hpre : dnLit.isPrefixOf (dnLit ++ rest) = true := by
    rw [ List.isPrefixOf_iff_prefix]
    exact List.prefix_append dnLit rest
  rw [hws]
  rw [if_neg (by simp)]
  rw [if_pos hpre]
  rw [show (13 : Nat) = dnLit.length by decide, List.drop_left dnLit rest]

theorem parseColor_color (c0 : Char) (cr rest : List Char)
    (hcw : ∀ x ∈ (c0 :: cr), isWordDash x = true) :
    parseColor (' ' :: (c0 :: (cr ++ (dnLit ++ rest)))) = some (some (c0 :: cr), rest) := by
  rw [parseColor]
  have hshape : ' ' :: (c0 :: (cr ++ (dnLit ++ rest))) =
      [' '] ++ c0 :: (cr ++ dnLit ++ rest) := by simp
  have hsp1 := takeWhile_split isJsSpace [' '] c0 (cr ++ dnLit ++ rest)
    (by intro x hx; rw [List.mem_singleton] at hx; subst hx; decide)
    (wordDash_not_space c0 (hcw c0 (List.mem_cons_self c0 cr)))
  have hshape2 : c0 :: (cr ++ dnLit ++ rest) =
      (c0 :: cr) ++ quoteC :: (" data-note=\"".toList ++ rest) := by
    rw [show dnLit = quoteC :: " data-note=\"".toList by decide]
    simp
  have hsp2 := takeWhile_split isWordDash (c0 :: cr) quoteC
    (" data-note=\"".toList ++ rest) hcw (by decide)
  rw [hshape, hsp1.1, hsp1.2, hshape2, hsp2.1, hsp2.2]
  have hback : quoteC :: (" data-note=\"".toList ++ rest) = dnLit ++ rest := by
    rw [show dnLit = quoteC :: " data-note=\"".toList by decide]
    rfl
  rw [hback]
  have hpre : dnLit.isPrefixOf (dnLit ++ rest) = true := by
    rw [ List.isPrefixOf_iff_prefix]
    exact List.prefix_append dnLit rest
  rw [if_pos (by rw [hpre]; simp)]
  rw [show (13 : Nat) = dnLit.length by decide, List.drop_left dnLit rest]

/-- Re-matching a well-formed marker: the attempt at its start captures
exactly the color, note and visible text it was built from, and consumes
the whole marker.  Hypotheses: the color token is made of `[\w-]`
characters, the stored note contains no raw double quote, and the
visible text contains no occurrence of `</span>`. -/
theorem markerParse (color note vis : List Char)
    (hcw : ∀ x ∈ color, isWordDash x = true)
    (hq : quoteC ∉ note)
    (hv : containsSeq closeLit vis = false) :
    matchParse ("<span class=\"".toList ++ buildAnnotationClass color ++ dnLit ++
        note ++ qgtLit ++ vis ++ closeLit) =
      some ((if color.isEmpty then none else some color), note, vis,
        ("<span class=\"".toList ++ buildAnnotationClass color ++ dnLit ++
          note ++ qgtLit ++ vis ++ closeLit).length) := by
  have hr : containsSeq closeLit (vis ++ closeLit) = true := by
    have h := containsSeq_append_right closeLit (by decide) vis []
    simpa using h
  have hns : noteSplit (note ++ (qgtLit ++ (vis ++ closeLit))) = some (note, vis ++ closeLit) := by
    rw [← List.append_assoc]
    exact noteSplit_append note (vis ++ closeLit) hq hr
  have hvs : visSplit (vis ++ closeLit) = some (vis, []) := by
    have h := visSplit_append vis [] hv
    simpa using h
  cases color with
  | nil =>
    set M : List Char := "<span class=\"".toList ++ buildAnnotationClass [] ++ dnLit ++
      note ++ qgtLit ++ vis ++ closeLit with hMdef
    have hM : M = openLit ++ (dnLit ++ (note ++ (qgtLit ++ (vis ++ closeLit)))) := by
      rw [hMdef, show buildAnnotationClass [] = "ob-comment".toList by decide]
      simp only [List.append_assoc]
      rw [← List.append_assoc "<span class=\"".toList "ob-comment".toList]
      rw [show ("<span class=\"".toList ++ "ob-comment".toList : List Char) = openLit by decide]
    have hopen : openLit.isPrefixOf M = true := by
      rw [hM, List.isPrefixOf_iff_prefix]
      exact List.prefix_append _ _
    have hdrop : M.drop 23 = dnLit ++ (note ++ (qgtLit ++ (vis ++ closeLit))) := by
      rw [hM, show (23 : Nat) = openLit.length by decide]
      exact List.drop_left _ _
    have hpc : parseColor (M.drop 23) = some (none, note ++ (qgtLit ++ (vis ++ closeLit))) := by
      rw [hdrop]
      exact parseColor_dnlit _
    rw [matchParse_eval M none _ note _ vis [] hopen hpc hns hvs]
    simp
  | cons c0 cr =>
    set M : List Char := "<span class=\"".toList ++ buildAnnotationClass (c0 :: cr) ++ dnLit ++
      note ++ qgtLit ++ vis ++ closeLit with hMdef
    have hM : M = openLit ++ (' ' :: (c0 :: (cr ++ (dnLit ++
        (note ++ (qgtLit ++ (vis ++ closeLit))))))) := by
      rw [hMdef, show buildAnnotationClass (c0 :: cr) =
        "ob-comment ".toList ++ (c0 :: cr) by rw [buildAnnotationClass, if_neg (by simp)]]
      simp only [List.append_assoc, List.cons_append]
      rw [← List.append_assoc "<span class=\"".toList "ob-comment ".toList]
      rw [show ("<span class=\"".toList ++ "ob-comment ".toList : List Char) =
        openLit ++ [' '] by decide]
      simp [List.append_assoc]
    have hopen : openLit.isPrefixOf M = true := by
      rw [hM, List.isPrefixOf_iff_prefix]
      exact List.prefix_append _ _
    have hdrop : M.drop 23 = ' ' :: (c0 :: (cr ++ (dnLit ++
        (note ++ (qgtLit ++ (vis ++ closeLit)))))) := by
      rw [hM, show (23 : Nat) = openLit.length by decide]
      exact List.drop_left _ _
    have hpc : parseColor (M.drop 23) =
        some (some (c0 :: cr), note ++ (qgtLit ++ (vis ++ closeLit))) := by
      rw [hdrop]
      exact parseColor_color c0 cr _ hcw
    rw [matchParse_eval M (some (c0 :: cr)) _ note _ vis [] hopen hpc hns hvs]
    simp

theorem scanAux_past (text : List Char) :
    ∀ fuel i, text.length ≤ i → scanAux text fuel i = [] := by
  intro fuel
  induction fuel with
  | zero => intro i _; rfl
  | succ fuel ih =>
    intro i hi
    rw [scanAux]
    split
    · rfl
    · rename_i hnotlt
      have hieq : i = text.length := by omega
      have hdrop : text.drop i = [] := by
        rw [hieq]
        exact List.drop_length text
      rw [hdrop]
      rw [show matchParse [] = none by decide]
      exact ih (i + 1) (by omega)

/-- A text that is matched in full from position 0 yields exactly one
match. -/
theorem allMatches_of_full_parse (text : List Char) (c : Option (List Char))
    (n v : List Char) (h : matchParse text = some (c, n, v, text.length)) :
    allMatches text = [⟨0, c, n, v, text.length⟩] := by
  have h45 := (matchParse_len_bounds text c n v text.length h).1
  rw [allMatches, scanAux]
  rw [if_neg (by omega)]
  rw [List.drop_zero, h]
  dsimp only []
  rw [show (0 + text.length : Nat) = text.length by omega]
  rw [scanAux_past text text.length text.length (Nat.le_refl _)]

theorem colorOption_wordDash :
    ∀ c ∈ colorOptionValues, ∀ x ∈ c, isWordDash x = true := by
  decide

/-- C8 (counterexample): for the note `"\r\n"` the built marker matches
and captures the escaped note `"&#10;"`, but decoding gives back `"\n"`,
not the original `"\r\n"`. -/
theorem c8_add_marker_counterexample :
    matchParse (addReplacement [] ('\r' :: '\n' :: []) ('v' :: [])) =
      some (none, "&#10;".toList, ('v' :: []),
        (addReplacement [] ('\r' :: '\n' :: []) ('v' :: [])).length) ∧
    decodeDataNoteList "&#10;".toList = ('\n' :: []) ∧
    ('\n' :: [] : List Char) ≠ ('\r' :: '\n' :: []) := by
  refine ⟨by decide, by decide, by decide⟩

/-- C8 (amended): for every carriage-return-free note `n`, every visible
text `v` without `</span>`, and every palette color, the marker built by
the add operation is matched by `COMMENT_REGEX` as a single match
spanning exactly the built text, capturing `escapeDataNote n` as the
note and `v` as the visible text, and decoding the captured note
restores `n` (in particular for `n` containing line feeds and double
quotes). -/
theorem c8_add_marker_roundtrip (colorChoice n v : List Char)
    (hcol : colorChoice ∈ colorOptionValues) (hcr : '\r' ∉ n)
    (hv : containsSeq closeLit v = false) :
    allMatches (addReplacement colorChoice n v) =
      [⟨0, (if colorChoice.isEmpty then none else some colorChoice),
        escapeDataNoteList n, v, (addReplacement colorChoice n v).length⟩] ∧
    decodeDataNoteList (escapeDataNoteList n) = n := by
  have hparse := markerParse colorChoice (escapeDataNoteList n) v
    (colorOption_wordDash colorChoice hcol) (escape_no_quote n) hv
  constructor
  · exact allMatches_of_full_parse _ _ _ _ hparse
  · exact decode_escape_no_cr n hcr

/-- C8 (witness): the amended statement at the spec's own scenario, note
`line1\nline2"quote"` around visible text `Quantum`, default color. -/
theorem c8_add_marker_roundtrip_witness :
    (("".toList : List Char) ∈ colorOptionValues ∧
      '\r' ∉ "line1\nline2\"quote\"".toList ∧
      containsSeq closeLit "Quantum".toList = false) ∧
    (allMatches (addReplacement "".toList "line1\nline2\"quote\"".toList "Quantum".toList) =
      [⟨0, none, escapeDataNoteList "line1\nline2\"quote\"".toList, "Quantum".toList,
        (addReplacement "".toList "line1\nline2\"quote\"".toList "Quantum".toList).length⟩] ∧
      decodeDataNoteList (escapeDataNoteList "line1\nline2\"quote\"".toList) =
        "line1\nline2\"quote\"".toList) := by
  refine ⟨⟨by decide, by decide, by decide⟩, ?_⟩
  have h := c8_add_marker_roundtrip "".toList "line1\nline2\"quote\"".toList
    "Quantum".toList (by decide) (by decide) (by decide)
  rcases h with ⟨h1, h2⟩
  refine ⟨?_, h2⟩
  rw [h1]
  rfl

theorem mem_allMatches_props (t : List Char) (m : RawMatch) (hm : m ∈ allMatches t) :
    containsSeq closeLit m.visible = false ∧
    (m.color = none ∨ ∃ w, m.color = some w ∧ w ≠ [] ∧ ∀ x ∈ w, isWordDash x = true) := by
  have h := (mem_scanAux t (t.length + 1) 0 m hm).2
  rcases matchParse_decomp _ _ _ _ _ h with ⟨cp, s4, _, _, hfree, hcolor⟩
  refine ⟨hfree, ?_⟩
  rcases hcolor with ⟨hc, _⟩ | ⟨ws, w, hc, _, _, hw, _, hwd⟩
  · left; exact hc
  · right; exact ⟨w, hc, hw, hwd⟩

/-- C7: for every marker actually matched in a document, the edit and
color-change replacements are markers whose captured visible-text field
is byte-for-byte the original visible text (the note field being the
re-encoded new/old note), and the delete replacement is exactly the
original visible text and nothing else. -/
theorem c7_operations_preserve_visible_text (t : List Char) (m : RawMatch)
    (hm : m ∈ allMatches t) (newColor newNote : List Char)
    (hcol : newColor ∈ colorOptionValues) :
    matchParse (editReplacement newColor newNote (resolveMatch m)) =
      some ((if newColor.isEmpty then none else some newColor),
        escapeDataNoteList newNote, m.visible,
        (editReplacement newColor newNote (resolveMatch m)).length) ∧
    matchParse (colorChangeReplacement newColor (resolveMatch m)) =
      some ((if newColor.isEmpty then none else some newColor),
        escapeDataNoteList (resolveMatch m).note, m.visible,
        (colorChangeReplacement newColor (resolveMatch m)).length) ∧
    deleteReplacement (resolveMatch m) = m.visible := by
  obtain ⟨hfree, _⟩ := mem_allMatches_props t m hm
  refine ⟨?_, ?_, rfl⟩
  · exact markerParse newColor (escapeDataNoteList newNote) m.visible
      (colorOption_wordDash newColor hcol) (escape_no_quote newNote) hfree
  · exact markerParse newColor (escapeDataNoteList (resolveMatch m).note) m.visible
      (colorOption_wordDash newColor hcol) (escape_no_quote (resolveMatch m).note) hfree

/-- C7 (witness): the operations applied to the marker matched in
`c5Doc`, with new color `red` and new note `x`. -/
theorem c7_operations_preserve_visible_text_witness :
    ((⟨2, none, "hi".toList, "World".toList, 52⟩ : RawMatch) ∈ allMatches c5Doc ∧
      ("red".toList : List Char) ∈ colorOptionValues) ∧
    (matchParse (editReplacement "red".toList "x".toList
        (resolveMatch ⟨2, none, "hi".toList, "World".toList, 52⟩)) =
      some ((if ("red".toList : List Char).isEmpty then none else some "red".toList),
        escapeDataNoteList "x".toList, "World".toList,
        (editReplacement "red".toList "x".toList
          (resolveMatch ⟨2, none, "hi".toList, "World".toList, 52⟩)).length) ∧
    matchParse (colorChangeReplacement "red".toList
        (resolveMatch ⟨2, none, "hi".toList, "World".toList, 52⟩)) =
      some ((if ("red".toList : List Char).isEmpty then none else some "red".toList),
        escapeDataNoteList (resolveMatch
          (⟨2, none, "hi".toList, "World".toList, 52⟩ : RawMatch)).note, "World".toList,
        (colorChangeReplacement "red".toList
          (resolveMatch ⟨2, none, "hi".toList, "World".toList, 52⟩)).length) ∧
    deleteReplacement (resolveMatch ⟨2, none, "hi".toList, "World".toList, 52⟩) =
      "World".toList) :=
  ⟨⟨by decide, by decide⟩,
    c7_operations_preserve_visible_text c5Doc ⟨2, none, "hi".toList, "World".toList, 52⟩
      (by decide) "red".toList "x".toList (by decide)⟩

/-- C4: the normalized document consists exactly of the original
characters outside the match spans, in order, interleaved with rebuilt
markers; and each rebuilt marker re-matches with the same color tag and
the same visible text, only its encoded note payload being the
re-encoding of the decoded original. -/
theorem c4_normalize_preserves_frame (t : List Char) :
    (normalizeAnnotationsInText t).1 = normSpec t (allMatches t) 0 ∧
    ∀ m ∈ allMatches t,
      matchParse (rebuildMarker m) =
        some (m.color, escapeDataNoteList (decodeDataNoteList m.note), m.visible,
          (rebuildMarker m).length) := by
  refine ⟨normalize_eq_normSpec t, ?_⟩
  intro m hm
  obtain ⟨hfree, hcolor⟩ := mem_allMatches_props t m hm
  have hparse := markerParse (m.color.getD [])
    (escapeDataNoteList (decodeDataNoteList m.note)) m.visible
    ?_ (escape_no_quote _) hfree
  · rw [rebuildMarker]
    rw [hparse]
    rcases hcolor with hc | ⟨w, hc, hw, _⟩
    · rw [hc]
      rfl
    · rw [hc]
      show some ((if ((some w : Option (List Char)).getD []).isEmpty
        then none else some ((some w : Option (List Char)).getD [])), _, _, _) = _
      rw [show ((some w : Option (List Char)).getD [] : List Char) = w from rfl]
      rw [if_neg (by simpa using hw)]
  · rcases hcolor with hc | ⟨w, hc, hw, hwd⟩
    · rw [hc]
      intro x hx
      exact absurd hx (by simp)
    · rw [hc]
      exact hwd

/-! ### Decoration-builder lemmas -/

theorem idxGtAux_append_no_gt (a : List Char) (ha : '>' ∉ a) :
    ∀ b k, idxGtAux (a ++ b) k = idxGtAux b (k + a.length) := by
  induction a with
  | nil => intro b k; simp [idxGtAux]
  | cons c a' ih =>
    intro b k
    have hc : c ≠ '>' := fun e => ha (e ▸ List.mem_cons_self c a')
    show idxGtAux (c :: (a' ++ b)) k = _
    rw [idxGtAux, if_neg hc]
    rw [ih (fun m => ha (List.mem_cons_of_mem c m)) b (k + 1)]
    congr 1
    simp
    omega

theorem openingTagLen_marker (cp note rest : List Char)
    (hcp : '>' ∉ cp) (hnote : '>' ∉ note) :
    openingTagLen (openLit ++ (cp ++ (dnLit ++ (note ++ (qgtLit ++ rest))))) =
      23 + cp.length + 13 + note.length + 2 := by
  have hop : '>' ∉ openLit := by decide
  have hdn : '>' ∉ dnLit := by decide
  rw [openingTagLen]
  rw [idxGtAux_append_no_gt openLit hop _ 0]
  rw [idxGtAux_append_no_gt cp hcp _ _]
  rw [idxGtAux_append_no_gt dnLit hdn _ _]
  rw [idxGtAux_append_no_gt note hnote _ _]
  rw [show qgtLit ++ rest = quoteC :: ('>' :: rest) by
    rw [show qgtLit = [quoteC, '>'] by decide]; rfl]
  rw [idxGtAux, if_neg (by decide)]
  rw [idxGtAux, if_pos rfl]
  dsimp only []
  have h1 : openLit.length = 23 := by decide
  have h2 : dnLit.length = 13 := by decide
  omega

theorem cp_no_gt (cp : List Char)
    (hcolor : cp = [] ∨ ∃ ws w, cp = ws ++ w ∧
      (∀ x ∈ ws, isJsSpace x = true) ∧ (∀ x ∈ w, isWordDash x = true)) :
    '>' ∉ cp := by
  rcases hcolor with hc | ⟨ws, w, hc, hws, hwd⟩
  · rw [hc]; simp
  · rw [hc]
    intro hx
    rcases List.mem_append.mp hx with hx | hx
    · have := hws _ hx
      exact absurd this (by decide)
    · have := hwd _ hx
      exact absurd this (by decide)

/-- On the slice of a match whose raw note contains no `'>'`, the
`indexOf('>') + 1` computation recovers the structural opening-tag
length. -/
theorem openingTagLen_of_match (text : List Char) (i : Nat)
    (color : Option (List Char)) (note vis : List Char) (len : Nat)
    (hp : matchParse (text.drop i) = some (color, note, vis, len))
    (hgt : '>' ∉ note) :
    openingTagLen ((text.drop i).take len) = len - vis.length - 7 := by
  rcases matchParse_decomp _ _ _ _ _ hp with ⟨cp, s4, hs, hlen, _, hcolor⟩
  have l1 : openLit.length = 23 := by decide
  have l2 : dnLit.length = 13 := by decide
  have l3 : qgtLit.length = 2 := by decide
  have l4 : closeLit.length = 7 := by decide
  have hC : (text.drop i).take len =
      openLit ++ (cp ++ (dnLit ++ (note ++ (qgtLit ++ (vis ++ closeLit))))) := by
    have hs' : text.drop i =
        (openLit ++ (cp ++ (dnLit ++ (note ++ (qgtLit ++ (vis ++ closeLit)))))) ++ s4 := by
      rw [hs]
      simp [List.append_assoc]
    have hlenC : (openLit ++ (cp ++ (dnLit ++ (note ++ (qgtLit ++
        (vis ++ closeLit)))))).length = len := by
      simp only [List.length_append]
      omega
    rw [hs', ← hlenC]
    exact List.take_left _ _
  rw [hC]
  rw [openingTagLen_marker cp note (vis ++ closeLit) ?_ hgt]
  · omega
  · apply cp_no_gt
    rcases hcolor with ⟨_, hc⟩ | ⟨ws, w, _, hc, _, _, hws, hwd⟩
    · left; exact hc
    · right; exact ⟨ws, w, hc, hws, hwd⟩

/-- Equivalence of the decoration loop with the spec-side decoration
list, given that no matched raw note contains `'>'`. -/
theorem buildDecorationsAux_eq (text : List Char) (cf ct : Nat) :
    ∀ fuel i, (∀ m ∈ scanAux text fuel i, '>' ∉ m.note) →
      buildDecorationsAux text cf ct fuel i =
        specDecorations cf ct (scanAux text fuel i) := by
  intro fuel
  induction fuel with
  | zero => intro i _; rfl
  | succ fuel ih =>
    intro i hnotes
    rw [buildDecorationsAux, scanAux]
    rw [scanAux] at hnotes
    split
    · rfl
    · rename_i hlen
      rw [if_neg hlen] at hnotes
      split
      · rename_i pr color note vis len hp
        rw [hp] at hnotes
        have hhead : '>' ∉ note :=
          hnotes ⟨i, color, note, vis, len⟩ (List.mem_cons_self _ _)
        have htail : ∀ m ∈ scanAux text fuel (i + len), '>' ∉ m.note :=
          fun m hm => hnotes m (List.mem_cons_of_mem _ hm)
        have hotl := openingTagLen_of_match text i color note vis len hp hhead
        rw [specDecorations]
        dsimp only [endIdx]
        by_cases hin : ((i ≤ cf && cf ≤ i + len) || (i ≤ ct && ct ≤ i + len)) = true
        · rw [if_pos hin, if_pos hin, ih (i + len) htail]
          rfl
        · rw [if_neg hin, if_neg hin, ih (i + len) htail, specDecoForMatch]
          dsimp only []
          rw [hotl]
          rfl
      · rename_i hp
        rw [hp] at hnotes
        exact ih (i + 1) hnotes

/-- C9 (counterexample): on `c9Doc`, whose matched marker has the raw
note `a>b`, the builder computes the opening-tag span from the first
`'>'` of the whole match — which lies inside the note — so the emitted
spans (`[0, 38)`, `[38, 39)`, `[39, 49)`) are not the structural
opening-delimiter / visible-content / closing-delimiter spans
(`[0, 41)`, `[41, 42)`, `[42, 49)`) that the claim describes. -/
theorem c9_decorations_counterexample :
    buildDecorations c9Doc 51 51 =
      [Deco.rep 0 38, Deco.mark 38 39 "ob-comment".toList "a>b".toList,
       Deco.rep 39 49] ∧
    specDecorations 51 51 (allMatches c9Doc) =
      [Deco.rep 0 41, Deco.mark 41 42 "ob-comment".toList "a>b".toList,
       Deco.rep 42 49] ∧
    buildDecorations c9Doc 51 51 ≠ specDecorations 51 51 (allMatches c9Doc) := by
  refine ⟨by decide, by decide, by decide⟩

/-- C9 (amended): for every document in which no matched marker's raw
note contains `'>'` (every document in canonical encoding), and every
selection, `buildDecorations` emits, per match: nothing when the
selection's `from` or `to` lies in the closed marker span, and otherwise
exactly a replace (hide) decoration on the opening-delimiter span, a
mark carrying the class and decoded note on the visibleText-length
content span, and a replace decoration on the closing-delimiter span. -/
theorem c9_decorations_spec (text : List Char) (cursorFrom cursorTo : Nat)
    (h : ∀ m ∈ allMatches text, '>' ∉ m.note) :
    buildDecorations text cursorFrom cursorTo =
      specDecorations cursorFrom cursorTo (allMatches text) :=
  buildDecorationsAux_eq text cursorFrom cursorTo (text.length + 1) 0 h

/-- C9 (witness): the amended statement on `c5Doc` with a collapsed
selection at offset 0 (outside the marker span `[2, 54]`). -/
theorem c9_decorations_spec_witness :
    (∀ m ∈ allMatches c5Doc, '>' ∉ m.note) ∧
    buildDecorations c5Doc 0 0 = specDecorations 0 0 (allMatches c5Doc) :=
  ⟨by decide, c9_decorations_spec c5Doc 0 0 (by decide)⟩

/-! ### Fuel adequacy: the scan is stable once the fuel covers the
remaining text, so `text.length + 1` steps compute the exec loop's true
result (each loop step advances the position by at least one). -/

theorem scanAux_succ_stable (text : List Char) :
    ∀ fuel i, text.length + 1 - i ≤ fuel →
      scanAux text (fuel + 1) i = scanAux text fuel i := by
  intro fuel
  induction fuel with
  | zero =>
    intro i h
    rw [scanAux_past text (0 + 1) i (by omega)]
    rfl
  | succ fuel ih =>
    intro i h
    rw [scanAux]
    conv_rhs => rw [scanAux]
    split
    · rfl
    · rename_i hlen
      split
      · rename_i pr color note vis len hp
        have h1 := (matchParse_len_bounds _ _ _ _ _ hp).1
        rw [ih (i + len) (by omega)]
      · rw [ih (i + 1) (by omega)]

theorem scanAux_add_stable (text : List Char) :
    ∀ k fuel i, text.length + 1 - i ≤ fuel →
      scanAux text (fuel + k) i = scanAux text fuel i := by
  intro k
  induction k with
  | zero => intro fuel i _; rfl
  | succ k ih =>
    intro fuel i h
    rw [show fuel + (k + 1) = (fuel + k) + 1 by omega]
    rw [scanAux_succ_stable text (fuel + k) i (by omega)]
    exact ih fuel i h

/-- Any fuel of at least `text.length + 1 - i` computes the same scan:
the fueled encoding is the loop's fixpoint, not a truncation. -/
theorem scanAux_fuel_stable (text : List Char) (f1 f2 i : Nat)
    (h1 : text.length + 1 - i ≤ f1) (h2 : text.length + 1 - i ≤ f2) :
    scanAux text f1 i = scanAux text f2 i := by
  rcases Nat.le_total f1 f2 with hle | hle
  · rcases Nat.exists_eq_add_of_le hle with ⟨k, hk⟩
    subst hk
    exact (scanAux_add_stable text k f1 i h1).symm
  · rcases Nat.exists_eq_add_of_le hle with ⟨k, hk⟩
    subst hk
    exact scanAux_add_stable text k f2 i h2

theorem allMatches_fuel (text : List Char) (fuel : Nat)
    (h : text.length + 1 ≤ fuel) : scanAux text fuel 0 = allMatches text :=
  scanAux_fuel_stable text fuel (text.length + 1) 0 (by omega) (by omega)
